import Mathlib

/-!
# reo-learn: the membership-query oracle of `lib/sul/interface.go`

A shallow embedding of package `sul` (and of the alternator example built on
it), followed by theorems about the alphabet generator `GetInputs`, the output
stage of `SeqSimulate` and the stabilisation loop of `MQuery`.

Modelling conventions.

* A Go `map[string]T` is a finite map with unique keys, `GoMap T`.  Reading a
  missing key yields the zero value of `T`, as in Go.  A nil map is
  represented by the empty map: the two differ only when written to, and the
  embedded code writes only to maps it has allocated.
* `[]*Input` is a list of `Input` values.  Every pointer stored by
  `GetInputs` is freshly allocated (`new(Input)` or `deepcopy`), so no two
  list cells alias and the in-place write `inp.Datum[port] = false` is the
  replacement of that one cell.
* Go `int` is the 64-bit two's-complement integer; `ct++` wraps.
* The concurrent part of a simulation run (ports, channel processes, timing)
  is not embedded.  Its observable effect, the strings left in the capture
  channels `OutBufs`, is an argument of `SeqSimulate`; the results of the
  successive runs of one `MQuery` call are an argument of `MQuery`.
* Log lines and the diagnostic counters `mqcounter`, `rdcounter` are left out.
-/

namespace Sul

/-- Go `map[string]T`. -/
abbrev GoMap (α : Type) := AList (fun _ : String => α)

/-- Go `m[k]`: the stored value, or the zero value of the element type. -/
def GoMap.index {α : Type} (m : GoMap α) (k : String) (zero : α) : α :=
  (m.lookup k).getD zero

/-- Go `int` increment with 64-bit wrap-around. -/
def wrapInt (x : Int) : Int :=
  (x + 9223372036854775808) % 18446744073709551616 - 9223372036854775808

/-- `type Input struct { Datum map[string]bool; IsTime bool }` -/
structure Input where
  Datum : GoMap Bool
  IsTime : Bool

/-- `type SingleOutput struct { Datum string; IsEmpty bool }` -/
structure SingleOutput where
  Datum : String
  IsEmpty : Bool
  deriving DecidableEq

/-- Zero value of `SingleOutput`, what `o[key]` yields for a missing key. -/
def SingleOutput.zero : SingleOutput := ⟨"", false⟩

/-- `type Output map[string]SingleOutput` -/
abbrev Output := GoMap SingleOutput

/-- `type InputSeq []*Input` -/
abbrev InputSeq := List Input

/-- `type OutputSeq []Output` -/
abbrev OutputSeq := List Output

/-- `func (self SingleOutput) EqualTo(so SingleOutput) bool` -/
def SingleOutput.EqualTo (self so : SingleOutput) : Bool :=
  if self.IsEmpty then so.IsEmpty else decide (self.Datum = so.Datum)

/-- `func (self *Output) EqualTo(o *Output) bool`: the loop ranges over the
keys of the receiver only. -/
def Output.EqualTo (self o : Output) : Bool :=
  self.keys.all fun key =>
    (GoMap.index self key SingleOutput.zero).EqualTo (GoMap.index o key SingleOutput.zero)

/-- Modelled from the spec: `reo.Port` (package `lib/reo` is not part of the
sources at hand).  A port is identified by its allocation number; `0` is the
zero value, a port whose channels are nil. -/
abbrev Port := Nat

/-- `type SulInst struct`, restricted to the three port tables. -/
structure SulInst where
  InPorts : GoMap Port
  OutPorts : GoMap Port
  MidPorts : GoMap Port

/-- `type Oracle struct`.  `GenerateInst` is passed separately to the functions
that call it; `Cache` is used in commented-out code only. -/
structure Oracle where
  InPorts : List String
  MidPorts : List String
  OutPorts : List String
  Inputs : List Input
  TimeUnit : Nat

/-- One loop of `GeneratePort`: `for _, name := range names { tbl[name] = reo.MakePort() }`,
threading the allocation counter. -/
def GeneratePort.fill (names : List String) (st : GoMap Port × Nat) : GoMap Port × Nat :=
  names.foldl (fun s name => (s.1.insert name (s.2 + 1), s.2 + 1)) st

/-- `func (self *SulInst) GeneratePort(ref *Oracle)` -/
def GeneratePort (ref : Oracle) : SulInst :=
  let a := GeneratePort.fill ref.InPorts (∅, 0)
  let b := GeneratePort.fill ref.OutPorts (∅, a.2)
  let c := GeneratePort.fill ref.MidPorts (∅, b.2)
  { InPorts := a.1, OutPorts := b.1, MidPorts := c.1 }

/-- `func (self Input) deepcopy() *Input` -/
def Input.deepcopy (self : Input) : Input :=
  if self.IsTime then
    { Datum := ∅, IsTime := true }
  else
    { Datum := self.Datum.entries.foldl (fun r e => r.insert e.1 e.2) ∅, IsTime := false }

/-- The inner loop of `GetInputs` for one port: every `inp` of `rel` gets
`inp.Datum[port] = false` in place, and its copy with `port` set to `true` is
appended to `temp`.  Returns the updated `rel` and `temp`. -/
def GetInputs.inner (port : String) : List Input → List Input → List Input × List Input
  | [], temp => ([], temp)
  | inp :: rest, temp =>
    let inp1 : Input := { inp with Datum := inp.Datum.insert port false }
    let titm := inp1.deepcopy
    let titm1 : Input := { titm with Datum := titm.Datum.insert port true }
    let r := GetInputs.inner port rest (temp ++ [titm1])
    (inp1 :: r.1, r.2)

/-- The outer loop of `GetInputs`: `rel = append(rel, temp...)` after each port. -/
def GetInputs.outer : List String → List Input → List Input
  | [], rel => rel
  | port :: ports, rel =>
    let r := GetInputs.inner port rel []
    GetInputs.outer ports (r.1 ++ r.2)

/-- `func (self *Oracle) GetInputs() []*Input`: the returned slice and the
Oracle after the call. -/
def GetInputs (self : Oracle) : List Input × Oracle :=
  if self.Inputs.length ≠ 0 then
    (self.Inputs, self)
  else
    let rel := GetInputs.outer self.InPorts [{ Datum := ∅, IsTime := false }]
    let tick : Input := { Datum := ∅, IsTime := true }
    let rel := rel ++ [tick]
    (rel, { self with Inputs := rel })

/-- The body of the capture loop of `SeqSimulate` once `data` has been
received for port `name`. -/
def SeqSimulate.store (curr : Output) (name data : String) : Output :=
  if data = "<NONE>" then
    curr.insert name ⟨"", true⟩
  else if data = "" then
    curr            -- prints "FATAL ERROR: empty data fetched." and goes on
  else
    curr.insert name ⟨data, false⟩

/-- `data := <-inst.OutBufs[name]` followed by the body: `none` when the
channel holds nothing, where the receive blocks for ever. -/
def SeqSimulate.recv (st : Output × (String → List String)) (name : String) :
    Option (Output × (String → List String)) :=
  match st.2 name with
  | [] => none
  | data :: rest =>
    some (SeqSimulate.store st.1 name data, fun n => if n = name then rest else st.2 n)

/-- `for name, _ := range inst.OutPorts { ... }` starting from `curr := Output{}`. -/
def SeqSimulate.step (names : List String) (bufs : String → List String) :
    Option (Output × (String → List String)) :=
  names.foldlM SeqSimulate.recv (∅, bufs)

/-- `for _, _ = range ins { ...; out = append(out, curr) }` -/
def SeqSimulate.drain (names : List String) :
    InputSeq → OutputSeq → (String → List String) → Option OutputSeq
  | [], out, _ => some out
  | _ :: ins, out, bufs =>
    match SeqSimulate.step names bufs with
    | none => none
    | some (curr, bufs1) => SeqSimulate.drain names ins (out ++ [curr]) bufs1

/-- `func (self *Oracle) SeqSimulate(ins InputSeq) OutputSeq`, from
`// generate output` on.  `captured name` is the content of the channel
`inst.OutBufs[name]` when the connector has been stopped, oldest first. -/
def SeqSimulate (GenerateInst : Oracle → SulInst) (self : Oracle) (ins : InputSeq)
    (captured : String → List String) : Option OutputSeq :=
  let inst := GenerateInst self
  SeqSimulate.drain inst.OutPorts.keys ins [] captured

/-- `seq[len(seq)-1]` -/
def OutputSeq.final (seq : OutputSeq) : Output :=
  seq.getD (seq.length - 1) ∅

/-- The loop `for ct <= ibound { ... }` of `MQuery`, fed with the results of
the successive calls `self.SeqSimulate(in)`.  `none` when the runs at hand are
used up before the loop ends; otherwise `rec` and `count`, the number of runs
consumed. -/
def MQuery.loop (ibound : Int) : Output → Int → Nat → List OutputSeq → Option (Output × Nat)
  | cand, ct, count, runs =>
    if ct ≤ ibound then
      match runs with
      | [] => none
      | seq :: rest =>
        if seq.length = 0 then
          MQuery.loop ibound cand ct (count + 1) rest
        else
          let t := OutputSeq.final seq
          if 0 < ct ∧ t.EqualTo cand = true then
            MQuery.loop ibound cand (wrapInt (ct + 1)) (count + 1) rest
          else
            MQuery.loop ibound t 1 (count + 1) rest
    else
      some (cand, count)

/-- `func (self *Oracle) MQuery(in InputSeq) Output` with `var rec Output`,
`ct = 0`, `count = 0`. -/
def MQuery (ibound : Int) (runs : List OutputSeq) : Option (Output × Nat) :=
  MQuery.loop ibound ∅ 0 0 runs

/-- A run that produced some output. -/
def OutputSeq.ok (seq : OutputSeq) : Bool := seq.length != 0


/-! ## Vocabulary of the statements, and sample values -/

/-- Equality of two Inputs as pairs of an `IsTime` flag and a `Datum` map. -/
def Input.sameAs (a b : Input) : Prop :=
  a.IsTime = b.IsTime ∧ ∀ k, a.Datum.lookup k = b.Datum.lookup k

/-- The Input `x` is the non-time symbol of the subset `S` of the ports `P`:
`true` on the members of `S`, `false` on the other ports of `P`. -/
def Input.encodes (P S : List String) (x : Input) : Bool :=
  !x.IsTime && P.all fun p => x.Datum.lookup p == some (decide (p ∈ S))

/-- `inp` after `inp.Datum[port] = false`. -/
def GetInputs.off (port : String) (inp : Input) : Input :=
  { inp with Datum := inp.Datum.insert port false }

/-- The clone of `inp` with `port` flipped to `true`. -/
def GetInputs.on (port : String) (inp : Input) : Input :=
  { (GetInputs.off port inp).deepcopy with
    Datum := (GetInputs.off port inp).deepcopy.Datum.insert port true }

/-- Every element of `rel` is a non-time Input whose key set is `P`. -/
def GetInputs.Keyed (P : List String) (rel : List Input) : Prop :=
  ∀ x ∈ rel, x.IsTime = false ∧ ∀ k, (x.Datum.lookup k).isSome = true ↔ k ∈ P

/-- The Output assembled for one step when `slot name` is the string received
for port `name`: the capture loop body run over `names`, from `curr`. -/
def SeqSimulate.build (names : List String) (slot : String → String) (curr : Output) : Output :=
  names.foldl (fun c n => SeqSimulate.store c n (slot n)) curr

/-- `GetOracle` of `example/alternator/oracle.go`: the port declarations
(`TimeUnit` in nanoseconds). -/
def Alternator.GetOracle : Oracle :=
  { InPorts := ["A", "B"]
    MidPorts := ["M0", "M1", "M2", "M3", "M4", "M5", "M6", "M7"]
    OutPorts := ["C"]
    Inputs := []
    TimeUnit := 100 * 1000000 }

/-- The time-advance Input, `tick` of `GetInputs`. -/
def Input.tick : Input := { Datum := ∅, IsTime := true }

/-- The Input that offers a datum on both ports A and B. -/
def Input.both : Input :=
  { Datum := (AList.insert "A" true (∅ : GoMap Bool)).insert "B" true, IsTime := false }

/-- The Output whose port C holds the datum `"A"`. -/
def Output.cA : Output := AList.insert "C" ⟨"A", false⟩ ∅

/-- The Output whose port C is empty. -/
def Output.cNone : Output := AList.insert "C" ⟨"", true⟩ ∅

/-- The runs in `P` end in a streak of `ct` successful runs for `cand`: `P` is
`pre ++ s0 :: rest`, where `s0` is a successful run whose final Output is
`cand`, `rest` holds `ct - 1` successful runs, and the final Output of each
of those is `EqualTo` `cand`. -/
def MQuery.Streak (P : List OutputSeq) (cand : Output) (ct : Int) : Prop :=
  ∃ pre s0 rest, P = pre ++ s0 :: rest ∧ s0.ok = true ∧ s0.final = cand ∧
    ((rest.filter OutputSeq.ok).length : Int) + 1 = ct ∧
    ∀ s ∈ rest, s.ok = true → s.final.EqualTo cand = true

/-- Six runs: one ending in an empty port C, then four ending in `"A"` on C
with a failed run in between. -/
def MQuery.sampleRuns : List OutputSeq :=
  [[Output.cNone], [Output.cA], [], [Output.cA], [Output.cA], [Output.cA]]

/-- The Input that offers no datum: A and B both false. -/
def Input.quiet : Input :=
  { Datum := (AList.insert "A" false (∅ : GoMap Bool)).insert "B" false, IsTime := false }

/-! ## Equivalence query, Output equality and the alternator wiring -/

/-- `type Executable interface { Run(InputSeq) Output }`: a hypothesis.  `Run`
yields `none` where the implementation behind the interface panics or does
not return. -/
structure Executable where
  Run : InputSeq → Option Output

/-- `func (self Oracle) EQuery(hypo Executable) (InputSeq, bool)`: the body is
`return InputSeq{}, false`. -/
def EQuery (_self : Oracle) (_hypo : Executable) : InputSeq × Bool :=
  ([], false)

/-- The value by which an equivalence query reports a genuine negative
result: no counterexample, `found = false`. -/
def EQuery.negative : InputSeq × Bool := ([], false)

/-- A hypothesis whose `Run` never returns. -/
def Executable.stuck : Executable := ⟨fun _ => none⟩

/-- A hypothesis that answers every query with an empty port C. -/
def Executable.silent : Executable := ⟨fun _ => some Output.cNone⟩

/-- The i-th element of `rel` maps the j-th port of `P` to bit j of i, for
every index i and port position j, and `rel` has `2 ^ |P|` elements. -/
def GetInputs.Doubled (P : List String) (rel : List Input) : Prop :=
  rel.length = 2 ^ P.length ∧
    ∀ (i : Nat) (x : Input), rel[i]? = some x →
      ∀ (j : Nat) (p : String), P[j]? = some p → x.Datum.lookup p = some (i.testBit j)

/-- An entry as `SeqSimulate` stores it: empty with `Datum` `""`, or
non-empty with a `Datum` other than `""`. -/
def SingleOutput.wf (s : SingleOutput) : Bool :=
  if s.IsEmpty then decide (s.Datum = "") else decide (s.Datum ≠ "")

/-- Every entry of the Output is as `SeqSimulate` stores it. -/
def Output.wf (o : Output) : Bool :=
  o.entries.all fun e => e.2.wf

/-- The two Outputs are the same map from ports to SingleOutput. -/
def Output.same (a b : Output) : Prop :=
  ∀ k, a.lookup k = b.lookup k

/-- Two runs before the tail: one ending in an empty port C, one failed. -/
def MQuery.samplePre : List OutputSeq := [[Output.cNone], []]

/-- Four runs that all end in `"A"` on port C. -/
def MQuery.sampleTail : List OutputSeq := List.replicate 4 [Output.cA]

/-- The three port tables of a `SulInst`. -/
inductive Alternator.Table where
  | inPorts
  | outPorts
  | midPorts
  deriving DecidableEq

/-- The table of the instance `r` that a lookup addresses. -/
def Alternator.Table.of (r : SulInst) : Alternator.Table → GoMap Port
  | .inPorts => r.InPorts
  | .outPorts => r.OutPorts
  | .midPorts => r.MidPorts

/-- The names the Oracle declares for a table, those `GeneratePort` allocates. -/
def Alternator.Table.declared (o : Oracle) : Alternator.Table → List String
  | .inPorts => o.InPorts
  | .outPorts => o.OutPorts
  | .midPorts => o.MidPorts

/-- The `go reo.XChannel(...)` statements of `r.Start`, in source order: the
channel and the port lookups of its arguments (the stop port left out). -/
def Alternator.Start.spawns : List (String × List (Alternator.Table × String)) :=
  [ ("ReplicatorChannel", [(.inPorts, "M6"), (.midPorts, "M0"), (.midPorts, "M1")]),
    ("ReplicatorChannel", [(.inPorts, "M7"), (.midPorts, "M2"), (.midPorts, "M3")]),
    ("MergerChannel", [(.midPorts, "M4"), (.midPorts, "M5"), (.outPorts, "C")]),
    ("SyncdrainChannel", [(.inPorts, "M1"), (.outPorts, "M2")]),
    ("SyncChannel", [(.inPorts, "M0"), (.outPorts, "M4")]),
    ("FifoChannel", [(.inPorts, "M3"), (.outPorts, "M5")]),
    ("BufferChannel", [(.inPorts, "A"), (.midPorts, "M6")]),
    ("BufferChannel", [(.inPorts, "B"), (.midPorts, "M7")]) ]

/-- `o.GenerateInst` of the alternator up to `r.GeneratePort(o)`. -/
def Alternator.GenerateInst (o : Oracle) : SulInst := GeneratePort o

/-- `r.Start`: each channel process with the Ports it is passed, a missing
name yielding the zero-value Port `0`. -/
def Alternator.Start (r : SulInst) : List (String × List Port) :=
  Alternator.Start.spawns.map fun c =>
    (c.1, c.2.map fun a => GoMap.index (Alternator.Table.of r a.1) a.2 0)

/-- The lookups of `r.Start` whose name the Oracle does not declare for the
table addressed. -/
def Alternator.Start.misses (o : Oracle) : List (Alternator.Table × String) :=
  (Alternator.Start.spawns.map Prod.snd).flatten.filter fun a =>
    decide (a.2 ∉ Alternator.Table.declared o a.1)

/-! ## Theorems -/

/-! ### Alphabet generation -/

theorem foldl_insert_lookup {α : Type} (k : String) :
    ∀ (l : List (Sigma fun _ : String => α)) (acc : GoMap α), l.NodupKeys →
      (l.foldl (fun (r : GoMap α) e => r.insert e.1 e.2) acc).lookup k
        = (match l.dlookup k with
           | some v => some v
           | none => acc.lookup k)
  | [], acc, _ => by simp
  | e :: l, acc, h => by
    obtain ⟨k1, v1⟩ := e
    rw [List.nodupKeys_cons] at h
    rw [List.foldl_cons, foldl_insert_lookup k l _ h.2]
    by_cases hk : k = k1
    · subst hk
      have hnone : List.dlookup k l = none := List.dlookup_eq_none.mpr h.1
      simp [hnone]
    · have hk2 : k1 ≠ k := fun e => hk e.symm
      rw [List.dlookup_cons_ne l _ hk]
      cases List.dlookup k l <;> simp [AList.lookup_insert_ne hk]

theorem deepcopy_lookup (x : Input) (hx : x.IsTime = false) (k : String) :
    x.deepcopy.Datum.lookup k = x.Datum.lookup k := by
  unfold Input.deepcopy
  rw [if_neg (by simp [hx])]
  show (x.Datum.entries.foldl (fun (r : GoMap Bool) e => r.insert e.1 e.2) ∅).lookup k = _
  rw [foldl_insert_lookup k _ _ x.Datum.nodupKeys]
  have hl : x.Datum.lookup k = List.dlookup k x.Datum.entries := rfl
  rw [← hl]
  cases x.Datum.lookup k <;> simp

theorem deepcopy_isTime (x : Input) : x.deepcopy.IsTime = x.IsTime := by
  unfold Input.deepcopy
  cases h : x.IsTime <;> simp

theorem off_isTime (q : String) (x : Input) : (GetInputs.off q x).IsTime = x.IsTime := rfl

theorem on_isTime (q : String) (x : Input) : (GetInputs.on q x).IsTime = x.IsTime := by
  show (GetInputs.off q x).deepcopy.IsTime = _
  rw [deepcopy_isTime]; rfl

theorem off_lookup (q : String) (x : Input) (k : String) :
    (GetInputs.off q x).Datum.lookup k = if k = q then some false else x.Datum.lookup k := by
  show (x.Datum.insert q false).lookup k = _
  by_cases h : k = q
  · subst h; simp
  · simp [h, AList.lookup_insert_ne h]

theorem on_lookup (q : String) (x : Input) (hx : x.IsTime = false) (k : String) :
    (GetInputs.on q x).Datum.lookup k = if k = q then some true else x.Datum.lookup k := by
  show ((GetInputs.off q x).deepcopy.Datum.insert q true).lookup k = _
  by_cases h : k = q
  · subst h; simp
  · rw [AList.lookup_insert_ne h, deepcopy_lookup _ (by rw [off_isTime]; exact hx), off_lookup]
    simp [h]

theorem inner_eq (q : String) : ∀ (rel temp : List Input),
    GetInputs.inner q rel temp
      = (rel.map (GetInputs.off q), temp ++ rel.map (GetInputs.on q))
  | [], temp => by simp [GetInputs.inner]
  | x :: rel, temp => by
    simp only [GetInputs.inner, inner_eq q rel, List.map_cons, List.append_assoc,
      List.singleton_append]
    rfl

theorem outer_cons (q : String) (ports : List String) (rel : List Input) :
    GetInputs.outer (q :: ports) rel
      = GetInputs.outer ports (rel.map (GetInputs.off q) ++ rel.map (GetInputs.on q)) := by
  simp [GetInputs.outer, inner_eq]

theorem encodes_iff (P S : List String) (x : Input) :
    Input.encodes P S x = true ↔
      x.IsTime = false ∧ ∀ p ∈ P, x.Datum.lookup p = some (decide (p ∈ S)) := by
  simp [Input.encodes]

theorem keyed_absent {P : List String} {rel : List Input} (h : GetInputs.Keyed P rel)
    {x : Input} (hx : x ∈ rel) {q : String} (hq : q ∉ P) : x.Datum.lookup q = none := by
  have := (h x hx).2 q
  cases hl : x.Datum.lookup q with
  | none => rfl
  | some v => rw [hl] at this; exact absurd (this.mp rfl) hq

theorem step_keyed (P : List String) (q : String) (rel : List Input)
    (h : GetInputs.Keyed P rel) :
    GetInputs.Keyed (P ++ [q]) (rel.map (GetInputs.off q) ++ rel.map (GetInputs.on q)) := by
  intro y hy
  rw [List.mem_append, List.mem_map, List.mem_map] at hy
  rcases hy with ⟨x, hx, rfl⟩ | ⟨x, hx, rfl⟩
  · refine ⟨by rw [off_isTime]; exact (h x hx).1, fun k => ?_⟩
    rw [off_lookup, List.mem_append, List.mem_singleton, ← (h x hx).2 k]
    by_cases hk : k = q <;> simp [hk]
  · refine ⟨by rw [on_isTime]; exact (h x hx).1, fun k => ?_⟩
    rw [on_lookup q x (h x hx).1, List.mem_append, List.mem_singleton, ← (h x hx).2 k]
    by_cases hk : k = q <;> simp [hk]

theorem outer_keyed : ∀ (ports P : List String) (rel : List Input),
    GetInputs.Keyed P rel → GetInputs.Keyed (P ++ ports) (GetInputs.outer ports rel)
  | [], P, rel, h => by simpa [GetInputs.outer] using h
  | q :: ports, P, rel, h => by
    rw [outer_cons]
    have := outer_keyed ports (P ++ [q]) _ (step_keyed P q rel h)
    simpa using this

theorem outer_length : ∀ (ports : List String) (rel : List Input),
    (GetInputs.outer ports rel).length = 2 ^ ports.length * rel.length
  | [], rel => by simp [GetInputs.outer]
  | q :: ports, rel => by
    rw [outer_cons, outer_length ports]
    simp [pow_succ]
    ring

theorem step_pairwise (P : List String) (q : String) (rel : List Input)
    (h : GetInputs.Keyed P rel) (hq : q ∉ P)
    (hp : rel.Pairwise fun a b => ¬ Input.sameAs a b) :
    (rel.map (GetInputs.off q) ++ rel.map (GetInputs.on q)).Pairwise
      fun a b => ¬ Input.sameAs a b := by
  have key : ∀ x ∈ rel, ∀ y ∈ rel, ¬ Input.sameAs x y →
      ∀ (f g : Input → Input),
        (∀ z ∈ rel, (f z).IsTime = z.IsTime ∧ ∀ k, k ≠ q → (f z).Datum.lookup k = z.Datum.lookup k) →
        (∀ z ∈ rel, (g z).IsTime = z.IsTime ∧ ∀ k, k ≠ q → (g z).Datum.lookup k = z.Datum.lookup k) →
        ¬ Input.sameAs (f x) (g y) := by
    intro x hx y hy hxy f g hf hg hs
    apply hxy
    refine ⟨by rw [← (hf x hx).1, ← (hg y hy).1]; exact hs.1, fun k => ?_⟩
    by_cases hk : k = q
    · subst hk; rw [keyed_absent h hx hq, keyed_absent h hy hq]
    · rw [← (hf x hx).2 k hk, ← (hg y hy).2 k hk]; exact hs.2 k
  have hoff : ∀ z ∈ rel, (GetInputs.off q z).IsTime = z.IsTime ∧
      ∀ k, k ≠ q → (GetInputs.off q z).Datum.lookup k = z.Datum.lookup k :=
    fun z _ => ⟨off_isTime q z, fun k hk => by rw [off_lookup, if_neg hk]⟩
  have hon : ∀ z ∈ rel, (GetInputs.on q z).IsTime = z.IsTime ∧
      ∀ k, k ≠ q → (GetInputs.on q z).Datum.lookup k = z.Datum.lookup k :=
    fun z hz => ⟨on_isTime q z, fun k hk => by rw [on_lookup q z (h z hz).1, if_neg hk]⟩
  rw [List.pairwise_append, List.pairwise_map, List.pairwise_map]
  refine ⟨hp.imp_of_mem ?_, hp.imp_of_mem ?_, ?_⟩
  · intro a b ha hb hab
    exact key a ha b hb hab _ _ hoff hoff
  · intro a b ha hb hab
    exact key a ha b hb hab _ _ hon hon
  · intro a ha b hb hs
    rw [List.mem_map] at ha hb
    obtain ⟨x, hx, rfl⟩ := ha
    obtain ⟨y, hy, rfl⟩ := hb
    have := hs.2 q
    rw [off_lookup, on_lookup q y (h y hy).1] at this
    simp at this

theorem step_count (P : List String) (q : String) (rel : List Input)
    (hq : q ∉ P) (S : List String) :
    (rel.map (GetInputs.off q) ++ rel.map (GetInputs.on q)).countP (Input.encodes (P ++ [q]) S)
      = rel.countP (Input.encodes P S) := by
  have hne : ∀ p ∈ P, p ≠ q := fun p hp e => hq (e ▸ hp)
  have hoff : ∀ x ∈ rel, (Input.encodes (P ++ [q]) S (GetInputs.off q x) = true ↔
      (Input.encodes P S x = true ∧ q ∉ S)) := by
    intro x _
    rw [encodes_iff, encodes_iff, off_isTime]
    constructor
    · rintro ⟨h1, h2⟩
      refine ⟨⟨h1, fun p hp => ?_⟩, ?_⟩
      · have := h2 p (List.mem_append_left _ hp)
        rwa [off_lookup, if_neg (hne p hp)] at this
      · have := h2 q (by simp)
        rw [off_lookup, if_pos rfl] at this
        simpa using this
    · rintro ⟨⟨h1, h2⟩, h3⟩
      refine ⟨h1, fun p hp => ?_⟩
      rw [off_lookup]
      rcases List.mem_append.mp hp with hp | hp
      · rw [if_neg (hne p hp)]; exact h2 p hp
      · rw [List.mem_singleton] at hp; subst hp; simp [h3]
  have hon : ∀ x ∈ rel, (Input.encodes (P ++ [q]) S (GetInputs.on q x) = true ↔
      (Input.encodes P S x = true ∧ q ∈ S)) := by
    intro x hx
    rw [encodes_iff, encodes_iff, on_isTime]
    constructor
    · rintro ⟨h1, h2⟩
      refine ⟨⟨h1, fun p hp => ?_⟩, ?_⟩
      · have := h2 p (List.mem_append_left _ hp)
        rwa [on_lookup q x h1, if_neg (hne p hp)] at this
      · have := h2 q (by simp)
        rw [on_lookup q x h1, if_pos rfl] at this
        simpa using this
    · rintro ⟨⟨h1, h2⟩, h3⟩
      refine ⟨h1, fun p hp => ?_⟩
      rw [on_lookup q x h1]
      rcases List.mem_append.mp hp with hp | hp
      · rw [if_neg (hne p hp)]; exact h2 p hp
      · rw [List.mem_singleton] at hp; subst hp; simp [h3]
  rw [List.countP_append, List.countP_map, List.countP_map]
  by_cases hS : q ∈ S
  · have h0 : rel.countP (Input.encodes (P ++ [q]) S ∘ GetInputs.off q) = 0 := by
      rw [List.countP_eq_zero]
      intro x hx hc
      exact ((hoff x hx).mp hc).2 hS
    have h1 : rel.countP (Input.encodes (P ++ [q]) S ∘ GetInputs.on q)
        = rel.countP (Input.encodes P S) :=
      List.countP_congr fun x hx => by
        rw [Function.comp_apply, hon x hx]; exact and_iff_left hS
    rw [h0, h1, Nat.zero_add]
  · have h0 : rel.countP (Input.encodes (P ++ [q]) S ∘ GetInputs.on q) = 0 := by
      rw [List.countP_eq_zero]
      intro x hx hc
      exact hS ((hon x hx).mp hc).2
    have h1 : rel.countP (Input.encodes (P ++ [q]) S ∘ GetInputs.off q)
        = rel.countP (Input.encodes P S) :=
      List.countP_congr fun x hx => by
        rw [Function.comp_apply, hoff x hx]; exact and_iff_left hS
    rw [h0, h1, Nat.add_zero]

theorem outer_pairwise : ∀ (ports P : List String) (rel : List Input),
    (P ++ ports).Nodup → GetInputs.Keyed P rel →
    (rel.Pairwise fun a b => ¬ Input.sameAs a b) →
    (GetInputs.outer ports rel).Pairwise fun a b => ¬ Input.sameAs a b
  | [], _, rel, _, _, hp => by simpa [GetInputs.outer] using hp
  | q :: ports, P, rel, hnd, h, hp => by
    rw [outer_cons]
    have hq : q ∉ P := by
      intro hqP
      have := (List.nodup_append.mp hnd).2.2
      exact this hqP (List.mem_cons_self _ _)
    have hnd2 : ((P ++ [q]) ++ ports).Nodup := by simpa using hnd
    exact outer_pairwise ports (P ++ [q]) _ hnd2 (step_keyed P q rel h)
      (step_pairwise P q rel h hq hp)

theorem outer_count : ∀ (ports P : List String) (rel : List Input),
    (P ++ ports).Nodup → GetInputs.Keyed P rel → ∀ S : List String,
    (GetInputs.outer ports rel).countP (Input.encodes (P ++ ports) S)
      = rel.countP (Input.encodes P S)
  | [], P, rel, _, _, S => by simp [GetInputs.outer]
  | q :: ports, P, rel, hnd, h, S => by
    rw [outer_cons]
    have hq : q ∉ P := by
      intro hqP
      have := (List.nodup_append.mp hnd).2.2
      exact this hqP (List.mem_cons_self _ _)
    have hnd2 : ((P ++ [q]) ++ ports).Nodup := by simpa using hnd
    have := outer_count ports (P ++ [q]) _ hnd2 (step_keyed P q rel h) S
    rw [step_count P q rel hq S] at this
    simpa using this


theorem keyed_init : GetInputs.Keyed [] [{ Datum := ∅, IsTime := false }] := by
  intro x hx
  rw [List.mem_singleton] at hx
  subst hx
  exact ⟨rfl, fun k => by simp⟩

theorem getInputs_fresh (o : Oracle) (hc : o.Inputs = []) :
    (GetInputs o).1
      = GetInputs.outer o.InPorts [{ Datum := ∅, IsTime := false }]
          ++ [{ Datum := ∅, IsTime := true }] := by
  simp [GetInputs, hc]

theorem getInputs_hit (o : Oracle) (h : o.Inputs.length ≠ 0) : GetInputs o = (o.Inputs, o) := by
  unfold GetInputs
  rw [if_pos h]

theorem outer_init_keyed (P : List String) :
    GetInputs.Keyed P (GetInputs.outer P [{ Datum := ∅, IsTime := false }]) := by
  simpa using outer_keyed P [] _ keyed_init

/-- C3: with an empty cache and n pairwise distinct input ports, GetInputs
returns exactly 2^n + 1 symbols, and no two of them are equal as pairs of an
IsTime flag and a Datum map. -/
theorem GetInputs_size_distinct (o : Oracle) (hc : o.Inputs = []) (hd : o.InPorts.Nodup) :
    (GetInputs o).1.length = 2 ^ o.InPorts.length + 1 ∧
      (GetInputs o).1.Pairwise fun a b => ¬ Input.sameAs a b := by
  rw [getInputs_fresh o hc]
  refine ⟨by simp [outer_length], ?_⟩
  rw [List.pairwise_append]
  refine ⟨outer_pairwise o.InPorts [] _ (by simpa using hd) keyed_init (by simp), by simp, ?_⟩
  intro a ha b hb hs
  rw [List.mem_singleton] at hb
  subst hb
  have := (outer_init_keyed o.InPorts a ha).1
  rw [hs.1] at this
  exact absurd this (by simp)

/-- C4: with an empty cache and pairwise distinct input ports P, for every
subset S exactly one returned symbol is the non-time Input that is true on
the members of S and false on the other ports of P, and exactly one returned
symbol is the time-advance Input. -/
theorem GetInputs_subset_once (o : Oracle) (hc : o.Inputs = []) (hd : o.InPorts.Nodup)
    (S : List String) :
    (GetInputs o).1.countP (Input.encodes o.InPorts S) = 1 ∧
      (GetInputs o).1.countP (fun x => x.IsTime) = 1 := by
  rw [getInputs_fresh o hc, List.countP_append, List.countP_append]
  constructor
  · have := outer_count o.InPorts [] [{ Datum := ∅, IsTime := false }]
      (by simpa using hd) keyed_init S
    rw [List.nil_append] at this
    rw [this]
    simp [Input.encodes]
  · have h0 : (GetInputs.outer o.InPorts [{ Datum := ∅, IsTime := false }]).countP
        (fun x => x.IsTime) = 0 := by
      rw [List.countP_eq_zero]
      intro x hx
      simp [(outer_init_keyed o.InPorts x hx).1]
    rw [h0]
    simp

/-- C9: with an empty cache, the Datum of every non-time Input returned by
GetInputs has exactly the declared input ports as its keys. -/
theorem GetInputs_keys (o : Oracle) (hc : o.Inputs = []) :
    ∀ x ∈ (GetInputs o).1, x.IsTime = false →
      ∀ k, (x.Datum.lookup k).isSome = true ↔ k ∈ o.InPorts := by
  intro x hx ht
  rw [getInputs_fresh o hc, List.mem_append, List.mem_singleton] at hx
  rcases hx with hx | hx
  · exact (outer_init_keyed o.InPorts x hx).2
  · subst hx
    exact absurd ht (by simp)

/-- C10: GetInputs is cached and idempotent.  After a call the Inputs field
holds the returned list, which is never empty; a later call returns the same
list and leaves the Oracle as it is, also when InPorts was changed in between;
a freshly generated list contains the time-advance symbol. -/
theorem GetInputs_cached (o : Oracle) :
    (GetInputs o).2.Inputs = (GetInputs o).1 ∧
      (GetInputs o).1 ≠ [] ∧
      GetInputs (GetInputs o).2 = GetInputs o ∧
      (∀ P : List String,
        GetInputs { (GetInputs o).2 with InPorts := P }
          = ((GetInputs o).1, { (GetInputs o).2 with InPorts := P })) ∧
      ∃ x ∈ (GetInputs { o with Inputs := [] }).1, x.IsTime = true := by
  have hne : (GetInputs o).1 ≠ [] := by
    unfold GetInputs
    by_cases h : o.Inputs.length ≠ 0
    · rw [if_pos h]
      intro hnil
      exact h (by rw [show o.Inputs = [] from hnil]; rfl)
    · rw [if_neg h]; simp
  have hin : (GetInputs o).2.Inputs = (GetInputs o).1 := by
    unfold GetInputs
    by_cases h : o.Inputs.length ≠ 0
    · rw [if_pos h]
    · rw [if_neg h]
  have hlen : (GetInputs o).2.Inputs.length ≠ 0 := by
    rw [hin]
    exact fun h => hne (List.length_eq_zero.mp h)
  refine ⟨hin, hne, ?_, ?_, ?_⟩
  · rw [getInputs_hit _ hlen, hin]
  · intro P
    rw [getInputs_hit _ (by exact hlen)]
    exact Prod.ext hin rfl
  · refine ⟨{ Datum := ∅, IsTime := true }, ?_, rfl⟩
    rw [getInputs_fresh _ rfl]
    simp

/-- Witness of C3 on the alternator: two input ports, five symbols. -/
theorem GetInputs_size_distinct_witness :
    Alternator.GetOracle.Inputs = [] ∧ Alternator.GetOracle.InPorts.Nodup ∧
      ((GetInputs Alternator.GetOracle).1.length = 2 ^ Alternator.GetOracle.InPorts.length + 1 ∧
        (GetInputs Alternator.GetOracle).1.Pairwise fun a b => ¬ Input.sameAs a b) :=
  ⟨rfl, by decide, GetInputs_size_distinct Alternator.GetOracle rfl (by decide)⟩

/-- Witness of C4 on the alternator, for the subset that holds port A only. -/
theorem GetInputs_subset_once_witness :
    Alternator.GetOracle.Inputs = [] ∧ Alternator.GetOracle.InPorts.Nodup ∧
      ((GetInputs Alternator.GetOracle).1.countP
          (Input.encodes Alternator.GetOracle.InPorts ["A"]) = 1 ∧
        (GetInputs Alternator.GetOracle).1.countP (fun x => x.IsTime) = 1) :=
  ⟨rfl, by decide, GetInputs_subset_once Alternator.GetOracle rfl (by decide) ["A"]⟩

/-- Witness of C9 on the alternator: the all-false symbol and its key A. -/
theorem GetInputs_keys_witness :
    Alternator.GetOracle.Inputs = [] ∧ Input.quiet ∈ (GetInputs Alternator.GetOracle).1 ∧
      Input.quiet.IsTime = false ∧
      ((Input.quiet.Datum.lookup "A").isSome = true ↔ "A" ∈ Alternator.GetOracle.InPorts) :=
  ⟨rfl, List.Mem.head _, rfl,
    GetInputs_keys Alternator.GetOracle rfl Input.quiet (List.Mem.head _) rfl "A"⟩

/-! ### The output stage of SeqSimulate -/

theorem build_congr (slot slot2 : String → String) :
    ∀ (names : List String) (curr : Output), (∀ n ∈ names, slot n = slot2 n) →
      SeqSimulate.build names slot curr = SeqSimulate.build names slot2 curr
  | [], _, _ => rfl
  | n :: names, curr, h => by
    simp only [SeqSimulate.build, List.foldl_cons]
    rw [h n (List.mem_cons_self _ _)]
    exact build_congr slot slot2 names _ fun m hm => h m (List.mem_cons_of_mem _ hm)

theorem step_some : ∀ (names : List String) (curr : Output) (bufs : String → List String),
    names.Nodup → (∀ n ∈ names, bufs n ≠ []) →
      names.foldlM SeqSimulate.recv (curr, bufs)
        = some (SeqSimulate.build names (fun n => (bufs n).headD "") curr,
                fun n => if n ∈ names then (bufs n).tail else bufs n)
  | [], curr, bufs, _, _ => by simp [SeqSimulate.build]
  | n :: names, curr, bufs, hnd, hne => by
    rw [List.nodup_cons] at hnd
    rw [List.foldlM_cons]
    cases hb : bufs n with
    | nil => exact absurd hb (hne n (List.mem_cons_self _ _))
    | cons d rest =>
      have hrecv : SeqSimulate.recv (curr, bufs) n
          = some (SeqSimulate.store curr n d, fun m => if m = n then rest else bufs m) := by
        simp [SeqSimulate.recv, hb]
      rw [hrecv]
      show List.foldlM SeqSimulate.recv _ names = _
      have hothers : ∀ m ∈ names, (if m = n then rest else bufs m) = bufs m := by
        intro m hm
        rw [if_neg (fun e : m = n => hnd.1 (e ▸ hm))]
      rw [step_some names _ _ hnd.2 (fun m hm => by
        rw [hothers m hm]; exact hne m (List.mem_cons_of_mem _ hm))]
      congr 1
      refine Prod.ext ?_ ?_
      · simp only [SeqSimulate.build, List.foldl_cons, hb, List.headD_cons]
        exact build_congr _ _ names _ fun m hm => by
          show List.headD (if m = n then rest else bufs m) "" = _
          rw [hothers m hm]
      · funext m
        by_cases hmn : m = n
        · subst hmn
          simp [hnd.1, hb]
        · simp only [hmn, if_false, List.mem_cons, false_or]

theorem step_none : ∀ (names : List String) (curr : Output) (bufs : String → List String),
    names.Nodup → (∃ n ∈ names, bufs n = []) →
      names.foldlM SeqSimulate.recv (curr, bufs) = none
  | [], _, _, _, h => by obtain ⟨n, hn, _⟩ := h; cases hn
  | n :: names, curr, bufs, hnd, h => by
    rw [List.nodup_cons] at hnd
    rw [List.foldlM_cons]
    cases hb : bufs n with
    | nil => simp [SeqSimulate.recv, hb]
    | cons d rest =>
      have hrecv : SeqSimulate.recv (curr, bufs) n
          = some (SeqSimulate.store curr n d, fun m => if m = n then rest else bufs m) := by
        simp [SeqSimulate.recv, hb]
      rw [hrecv]
      show List.foldlM SeqSimulate.recv _ names = _
      apply step_none names _ _ hnd.2
      obtain ⟨m, hm, hmb⟩ := h
      rcases List.mem_cons.mp hm with e | hm2
      · subst e; rw [hb] at hmb; cases hmb
      · exact ⟨m, hm2, by rw [if_neg (fun e : m = n => hnd.1 (e ▸ hm2))]; exact hmb⟩
theorem tail_getD (l : List String) (i : Nat) : l.tail.getD i "" = l.getD (i + 1) "" := by
  cases l <;> simp

theorem headD_getD (l : List String) : l.headD "" = l.getD 0 "" := by
  cases l <;> simp

theorem drain_some (names : List String) (hnd : names.Nodup) :
    ∀ (ins : InputSeq) (out : OutputSeq) (bufs : String → List String),
      (∀ n ∈ names, ins.length ≤ (bufs n).length) →
      SeqSimulate.drain names ins out bufs
        = some (out ++ (List.range ins.length).map fun i =>
            SeqSimulate.build names (fun n => (bufs n).getD i "") ∅)
  | [], out, bufs, _ => by simp [SeqSimulate.drain]
  | _ :: ins, out, bufs, h => by
    have hne : ∀ n ∈ names, bufs n ≠ [] := by
      intro n hn e
      have := h n hn
      rw [e] at this
      simp at this
    have hstep := step_some names ∅ bufs hnd hne
    simp only [SeqSimulate.drain, SeqSimulate.step, hstep]
    rw [drain_some names hnd ins _ _ (fun n hn => by
      have := h n hn
      simp only [if_pos hn, List.length_tail, List.length_cons] at this ⊢
      omega)]
    rw [List.length_cons, List.range_succ_eq_map, List.map_cons, List.map_map,
      List.append_assoc, List.singleton_append]
    congr 2
    congr 1
    · exact build_congr _ _ names _ fun n _ => headD_getD _
    · apply List.map_congr_left
      intro i _
      exact build_congr _ _ names _ fun n hn => by
        show List.getD (if n ∈ names then (bufs n).tail else bufs n) i "" = _
        rw [if_pos hn, tail_getD]

theorem drain_none (names : List String) (hnd : names.Nodup) :
    ∀ (ins : InputSeq) (out : OutputSeq) (bufs : String → List String),
      (∃ n ∈ names, (bufs n).length < ins.length) →
      SeqSimulate.drain names ins out bufs = none
  | [], _, _, h => by obtain ⟨n, _, hn⟩ := h; simp at hn
  | _ :: ins, out, bufs, h => by
    by_cases hne : ∀ n ∈ names, bufs n ≠ []
    · have hstep := step_some names ∅ bufs hnd hne
      simp only [SeqSimulate.drain, SeqSimulate.step, hstep]
      apply drain_none names hnd ins
      obtain ⟨n, hn, hlt⟩ := h
      refine ⟨n, hn, ?_⟩
      have h0 : (bufs n).length ≠ 0 := fun e => hne n hn (List.length_eq_zero.mp e)
      simp only [if_pos hn, List.length_tail, List.length_cons] at hlt ⊢
      omega
    · have hex : ∃ n ∈ names, bufs n = [] := by
        by_contra hcon
        exact hne fun n hn e => hcon ⟨n, hn, e⟩
      have hstep := step_none names ∅ bufs hnd hex
      simp only [SeqSimulate.drain, SeqSimulate.step, hstep]

theorem build_lookup (slot : String → String) (p : String) :
    ∀ (names : List String) (curr : Output), p ∈ names →
      (slot p = "<NONE>" →
        (SeqSimulate.build names slot curr).lookup p = some ⟨"", true⟩) ∧
      (slot p ≠ "<NONE>" → slot p ≠ "" →
        (SeqSimulate.build names slot curr).lookup p = some ⟨slot p, false⟩)
  | [], _, h => by cases h
  | n :: names, curr, h => by
    simp only [SeqSimulate.build, List.foldl_cons]
    by_cases hp : p ∈ names
    · exact build_lookup slot p names _ hp
    · have hn : p = n := by
        rcases List.mem_cons.mp h with e | e
        · exact e
        · exact absurd e hp
      subst hn
      have keep : ∀ (c : Output), (SeqSimulate.build names slot c).lookup p = c.lookup p := by
        intro c
        clear h
        induction names generalizing c with
        | nil => rfl
        | cons m names ih =>
          simp only [SeqSimulate.build, List.foldl_cons]
          have hm : p ≠ m := fun e => hp (e ▸ List.mem_cons_self _ _)
          have := ih (fun hh => hp (List.mem_cons_of_mem _ hh)) (SeqSimulate.store c m (slot m))
          simp only [SeqSimulate.build] at this
          rw [this]
          unfold SeqSimulate.store
          split_ifs <;> simp [AList.lookup_insert_ne hm]
      have hk := keep (SeqSimulate.store curr p (slot p))
      simp only [SeqSimulate.build] at hk
      rw [hk]
      constructor
      · intro h1
        simp [SeqSimulate.store, h1]
      · intro h1 h2
        simp [SeqSimulate.store, h1, h2]
theorem fill_keys (k : String) : ∀ (names : List String) (st : GoMap Port × Nat),
    k ∈ (GeneratePort.fill names st).1.keys ↔ k ∈ names ∨ k ∈ st.1.keys
  | [], st => by simp [GeneratePort.fill]
  | n :: names, st => by
    have ih := fill_keys k names (st.1.insert n (st.2 + 1), st.2 + 1)
    simp only [GeneratePort.fill, List.foldl_cons] at ih ⊢
    rw [ih, ← AList.mem_keys, AList.mem_insert, List.mem_cons, AList.mem_keys]
    tauto

theorem GeneratePort_outPorts (o : Oracle) (p : String) :
    p ∈ (GeneratePort o).OutPorts.keys ↔ p ∈ o.OutPorts := by
  show p ∈ (GeneratePort.fill o.OutPorts _).1.keys ↔ _
  rw [fill_keys]
  simp

theorem map_range_get {α : Type} (F : Nat → α) (k i : Nat) (hi : i < k) :
    ((List.range k).map F)[i]? = some (F i) := by
  simp [hi]

theorem seqSimulate_some (gen : Oracle → SulInst) (o : Oracle) (ins : InputSeq)
    (captured : String → List String)
    (hbuf : ∀ p ∈ (gen o).OutPorts.keys, ins.length ≤ (captured p).length) :
    SeqSimulate gen o ins captured
      = some ((List.range ins.length).map fun i =>
          SeqSimulate.build (gen o).OutPorts.keys (fun n => (captured n).getD i "") ∅) := by
  unfold SeqSimulate
  rw [drain_some _ (gen o).OutPorts.keys_nodup ins [] captured hbuf]
  rfl

theorem seqSimulate_enough (gen : Oracle → SulInst) (o : Oracle) (ins : InputSeq)
    (captured : String → List String) (out : OutputSeq)
    (hout : SeqSimulate gen o ins captured = some out) :
    ∀ p ∈ (gen o).OutPorts.keys, ins.length ≤ (captured p).length := by
  intro p hp
  by_contra hlt
  have := drain_none _ (gen o).OutPorts.keys_nodup ins [] captured ⟨p, hp, by omega⟩
  unfold SeqSimulate at hout
  rw [this] at hout
  cases hout

/-- C5 (the code departs from it): on the alternator, one time-advance step
whose capture slot for the declared output port C holds the empty string
yields an Output without an entry for C, and SeqSimulate returns it. -/
theorem SeqSimulate_missing_entry :
    "C" ∈ Alternator.GetOracle.OutPorts ∧
      (SeqSimulate GeneratePort Alternator.GetOracle [Input.tick] (fun _ => [""])).map
          (List.map fun o => o.lookup "C") = some [none] := by
  decide

theorem build_lookup_keep (slot : String → String) (p : String)
    (h : ∀ n, n = p → slot n = "") :
    ∀ (names : List String) (curr : Output),
      (SeqSimulate.build names slot curr).lookup p = curr.lookup p
  | [], _ => rfl
  | n :: names, curr => by
    simp only [SeqSimulate.build, List.foldl_cons]
    have ih := build_lookup_keep slot p h names (SeqSimulate.store curr n (slot n))
    simp only [SeqSimulate.build] at ih
    rw [ih]
    by_cases hn : n = p
    · simp [SeqSimulate.store, h n hn]
    · have hpn : p ≠ n := fun e => hn e.symm
      unfold SeqSimulate.store
      split_ifs <;> simp [AList.lookup_insert_ne hpn]

theorem build_lookup_absent (slot : String → String) (p : String) :
    ∀ (names : List String) (curr : Output), p ∉ names →
      (SeqSimulate.build names slot curr).lookup p = curr.lookup p
  | [], _, _ => rfl
  | n :: names, curr, h => by
    simp only [SeqSimulate.build, List.foldl_cons]
    have hpn : p ≠ n := fun e => h (e ▸ List.mem_cons_self _ _)
    have ih := build_lookup_absent slot p names (SeqSimulate.store curr n (slot n))
      (fun hh => h (List.mem_cons_of_mem _ hh))
    simp only [SeqSimulate.build] at ih
    rw [ih]
    unfold SeqSimulate.store
    split_ifs <;> simp [AList.lookup_insert_ne hpn]

/-- C6: when every declared output port has captured at least as many slots
as the InputSeq has steps, SeqSimulate returns an OutputSeq of the same
length.  Its i-th Output has no entry outside the declared output ports, and
its entry for a declared port p is fixed by the i-th string s captured for
p: the empty SingleOutput for the sentinel, no entry for the empty string,
the SingleOutput holding s otherwise.  The OutputSeq is empty exactly when
the InputSeq is. -/
theorem SeqSimulate_length (GenerateInst : Oracle → SulInst) (self : Oracle) (ins : InputSeq)
    (captured : String → List String)
    (hgen : ∀ p, p ∈ (GenerateInst self).OutPorts.keys ↔ p ∈ self.OutPorts)
    (hbuf : ∀ p ∈ self.OutPorts, ins.length ≤ (captured p).length) :
    ∃ out, SeqSimulate GenerateInst self ins captured = some out ∧
      out.length = ins.length ∧
      (∀ i, i < ins.length →
        ∃ o : Output, out[i]? = some o ∧
          (∀ p, p ∉ self.OutPorts → o.lookup p = none) ∧
          ∀ p ∈ self.OutPorts, ∀ s, (captured p)[i]? = some s →
            (s = "<NONE>" → o.lookup p = some ⟨"", true⟩) ∧
            (s = "" → o.lookup p = none) ∧
            (s ≠ "<NONE>" → s ≠ "" → o.lookup p = some ⟨s, false⟩)) ∧
      (out = [] ↔ ins = []) := by
  refine ⟨_, seqSimulate_some GenerateInst self ins captured
    (fun p hp => hbuf p ((hgen p).mp hp)), by simp, ?_, ?_⟩
  · intro i hi
    refine ⟨_, map_range_get _ _ i hi, ?_, ?_⟩
    · intro p hp
      rw [build_lookup_absent _ p _ ∅ (fun hk => hp ((hgen p).mp hk))]
      rfl
    · intro p hp s hs
      have hpk : p ∈ (GenerateInst self).OutPorts.keys := (hgen p).mpr hp
      have hsl : (captured p).getD i "" = s := by
        rw [List.getD_eq_getElem?_getD, hs]; rfl
      have hb := build_lookup (fun n => (captured n).getD i "") p _ ∅ hpk
      simp only [hsl] at hb
      refine ⟨hb.1, ?_, hb.2⟩
      intro h0
      rw [build_lookup_keep (fun n => (captured n).getD i "") p
        (fun n hn => by subst hn; exact hsl.trans h0) _ ∅]
      rfl
  · simp

/-- C7: in the OutputSeq returned by SeqSimulate, the entry of a declared
output port p at step i is the empty SingleOutput when the i-th string
captured for p is the sentinel, and the SingleOutput holding that string when
it is any other non-empty string. -/
theorem SeqSimulate_entry (GenerateInst : Oracle → SulInst) (self : Oracle) (ins : InputSeq)
    (captured : String → List String) (out : OutputSeq)
    (hgen : ∀ p, p ∈ (GenerateInst self).OutPorts.keys ↔ p ∈ self.OutPorts)
    (hout : SeqSimulate GenerateInst self ins captured = some out)
    (i : Nat) (hi : i < ins.length) (p : String) (hp : p ∈ self.OutPorts)
    (s : String) (hs : (captured p)[i]? = some s) :
    (s = "<NONE>" → out[i]?.map (fun o => o.lookup p) = some (some ⟨"", true⟩)) ∧
      (s ≠ "<NONE>" → s ≠ "" →
        out[i]?.map (fun o => o.lookup p) = some (some ⟨s, false⟩)) := by
  have hbuf := seqSimulate_enough GenerateInst self ins captured out hout
  rw [seqSimulate_some GenerateInst self ins captured hbuf] at hout
  have hout2 := Option.some.inj hout
  subst hout2
  have hpk : p ∈ (GenerateInst self).OutPorts.keys := (hgen p).mpr hp
  have hsl : (captured p).getD i "" = s := by
    rw [List.getD_eq_getElem?_getD, hs]; rfl
  have hb := build_lookup (fun n => (captured n).getD i "") p _ ∅ hpk
  simp only [hsl] at hb
  rw [map_range_get _ _ i hi]
  constructor
  · intro h1
    rw [Option.map_some', hb.1 h1]
  · intro h1 h2
    rw [Option.map_some', hb.2 h1 h2]

/-- Witness of C6 on the alternator: a step offering data on A and B, then a
time-advance step; port C captured the datum "A", then the sentinel. -/
theorem SeqSimulate_length_witness :
    (∀ p, p ∈ (GeneratePort Alternator.GetOracle).OutPorts.keys ↔
        p ∈ Alternator.GetOracle.OutPorts) ∧
      (∀ p ∈ Alternator.GetOracle.OutPorts,
        [Input.both, Input.tick].length
          ≤ ((fun _ => ["A", "<NONE>"]) p : List String).length) ∧
      ∃ out, SeqSimulate GeneratePort Alternator.GetOracle [Input.both, Input.tick]
          (fun _ => ["A", "<NONE>"]) = some out ∧
        out.length = [Input.both, Input.tick].length ∧
        (∀ i, i < [Input.both, Input.tick].length →
          ∃ o : Output, out[i]? = some o ∧
            (∀ p, p ∉ Alternator.GetOracle.OutPorts → o.lookup p = none) ∧
            ∀ p ∈ Alternator.GetOracle.OutPorts, ∀ s,
              ((fun _ => ["A", "<NONE>"]) p : List String)[i]? = some s →
              (s = "<NONE>" → o.lookup p = some ⟨"", true⟩) ∧
              (s = "" → o.lookup p = none) ∧
              (s ≠ "<NONE>" → s ≠ "" → o.lookup p = some ⟨s, false⟩)) ∧
        (out = [] ↔ [Input.both, Input.tick] = []) :=
  ⟨GeneratePort_outPorts _, fun _ _ => Nat.le_refl 2,
    SeqSimulate_length GeneratePort Alternator.GetOracle [Input.both, Input.tick]
      (fun _ => ["A", "<NONE>"]) (GeneratePort_outPorts _) (fun _ _ => Nat.le_refl 2)⟩

/-- Witness of C7 on the alternator: the datum `"A"` captured for port C at
step 0. -/
theorem SeqSimulate_entry_witness :
    (∀ p, p ∈ (GeneratePort Alternator.GetOracle).OutPorts.keys ↔
        p ∈ Alternator.GetOracle.OutPorts) ∧
      SeqSimulate GeneratePort Alternator.GetOracle [Input.both] (fun _ => ["A"])
        = some [Output.cA] ∧
      0 < [Input.both].length ∧ "C" ∈ Alternator.GetOracle.OutPorts ∧
      ((fun _ => ["A"]) "C" : List String)[0]? = some "A" ∧
      (("A" = "<NONE>" →
          [Output.cA][0]?.map (fun o => o.lookup "C") = some (some ⟨"", true⟩)) ∧
        ("A" ≠ "<NONE>" → "A" ≠ "" →
          [Output.cA][0]?.map (fun o => o.lookup "C") = some (some ⟨"A", false⟩))) :=
  ⟨GeneratePort_outPorts _, rfl, by decide, by decide, rfl,
    SeqSimulate_entry GeneratePort Alternator.GetOracle [Input.both] (fun _ => ["A"])
      [Output.cA] (GeneratePort_outPorts _) rfl 0 (by decide) "C" (by decide) "A" rfl⟩

/-! ### The stabilisation loop of MQuery -/

theorem wrapInt_le (x : Int) : wrapInt x ≤ 9223372036854775807 := by
  unfold wrapInt; omega

theorem wrapInt_id (x : Int) (h0 : 0 ≤ x) (h1 : x ≤ 9223372036854775807) : wrapInt x = x := by
  unfold wrapInt; omega

theorem ok_iff (seq : OutputSeq) : seq.ok = true ↔ seq.length ≠ 0 := by
  simp [OutputSeq.ok]

theorem loop_exit (b : Int) (cand : Output) (ct : Int) (count : Nat) (runs : List OutputSeq)
    (h : ¬ ct ≤ b) : MQuery.loop b cand ct count runs = some (cand, count) := by
  unfold MQuery.loop; rw [if_neg h]

theorem loop_nil (b : Int) (cand : Output) (ct : Int) (count : Nat) (h : ct ≤ b) :
    MQuery.loop b cand ct count [] = none := by
  unfold MQuery.loop; rw [if_pos h]

theorem loop_skip (b : Int) (cand : Output) (ct : Int) (count : Nat) (seq : OutputSeq)
    (rest : List OutputSeq) (h : ct ≤ b) (hs : seq.ok = false) :
    MQuery.loop b cand ct count (seq :: rest) = MQuery.loop b cand ct (count + 1) rest := by
  have hl : seq.length = 0 := by simpa [OutputSeq.ok] using hs
  conv_lhs => unfold MQuery.loop
  rw [if_pos h]
  simp only [hl, if_true]

theorem loop_keep (b : Int) (cand : Output) (ct : Int) (count : Nat) (seq : OutputSeq)
    (rest : List OutputSeq) (h : ct ≤ b) (hs : seq.ok = true)
    (hc : 0 < ct ∧ seq.final.EqualTo cand = true) :
    MQuery.loop b cand ct count (seq :: rest)
      = MQuery.loop b cand (wrapInt (ct + 1)) (count + 1) rest := by
  have hl : ¬ seq.length = 0 := (ok_iff seq).mp hs
  conv_lhs => unfold MQuery.loop
  rw [if_pos h]
  simp only [hl, if_false, hc, and_self, if_true]

theorem loop_reset (b : Int) (cand : Output) (ct : Int) (count : Nat) (seq : OutputSeq)
    (rest : List OutputSeq) (h : ct ≤ b) (hs : seq.ok = true)
    (hc : ¬ (0 < ct ∧ seq.final.EqualTo cand = true)) :
    MQuery.loop b cand ct count (seq :: rest)
      = MQuery.loop b seq.final 1 (count + 1) rest := by
  have hl : ¬ seq.length = 0 := (ok_iff seq).mp hs
  conv_lhs => unfold MQuery.loop
  rw [if_pos h]
  simp only [hl, if_false, hc]

theorem loop_filter (b : Int) : ∀ (runs : List OutputSeq) (cand : Output) (ct : Int)
    (c1 c2 : Nat),
    (MQuery.loop b cand ct c1 (runs.filter OutputSeq.ok)).map Prod.fst
      = (MQuery.loop b cand ct c2 runs).map Prod.fst
  | [], cand, ct, c1, c2 => by
    by_cases h : ct ≤ b
    · simp [loop_nil b cand ct _ h]
    · simp [loop_exit b cand ct _ _ h]
  | seq :: rest, cand, ct, c1, c2 => by
    by_cases h : ct ≤ b
    · cases hs : seq.ok with
      | false =>
        rw [List.filter_cons_of_neg (by simp [hs]), loop_skip b cand ct c2 seq rest h hs]
        exact loop_filter b rest cand ct c1 (c2 + 1)
      | true =>
        rw [List.filter_cons_of_pos hs]
        by_cases hc : 0 < ct ∧ seq.final.EqualTo cand = true
        · rw [loop_keep b cand ct c1 seq _ h hs hc, loop_keep b cand ct c2 seq _ h hs hc]
          exact loop_filter b rest cand _ _ _
        · rw [loop_reset b cand ct c1 seq _ h hs hc, loop_reset b cand ct c2 seq _ h hs hc]
          exact loop_filter b rest _ _ _ _
    · simp [loop_exit b cand ct _ _ h]

theorem loop_never (b : Int) (hb : 9223372036854775807 ≤ b) :
    ∀ (runs : List OutputSeq) (cand : Output) (ct : Int) (count : Nat),
      ct ≤ 9223372036854775807 → MQuery.loop b cand ct count runs = none
  | [], cand, ct, count, h => loop_nil b cand ct count (le_trans h hb)
  | seq :: rest, cand, ct, count, h => by
    have hle : ct ≤ b := le_trans h hb
    cases hs : seq.ok with
    | false =>
      rw [loop_skip b cand ct count seq rest hle hs]
      exact loop_never b hb rest cand ct _ h
    | true =>
      by_cases hc : 0 < ct ∧ seq.final.EqualTo cand = true
      · rw [loop_keep b cand ct count seq _ hle hs hc]
        exact loop_never b hb rest cand _ _ (wrapInt_le _)
      · rw [loop_reset b cand ct count seq _ hle hs hc]
        exact loop_never b hb rest _ 1 _ (by omega)
theorem streak_skip {P : List OutputSeq} {cand : Output} {ct : Int} {seq : OutputSeq}
    (h : MQuery.Streak P cand ct) (hs : seq.ok = false) :
    MQuery.Streak (P ++ [seq]) cand ct := by
  obtain ⟨pre, s0, rest, hP, h0, hf, hct, hall⟩ := h
  refine ⟨pre, s0, rest ++ [seq], by simp [hP], h0, hf, ?_, ?_⟩
  · rw [List.filter_append, List.filter_cons_of_neg (by simp [hs])]
    simpa using hct
  · intro s hmem hok
    rcases List.mem_append.mp hmem with hm | hm
    · exact hall s hm hok
    · rw [List.mem_singleton] at hm
      subst hm
      rw [hs] at hok
      cases hok

theorem streak_keep {P : List OutputSeq} {cand : Output} {ct : Int} {seq : OutputSeq}
    (h : MQuery.Streak P cand ct) (hs : seq.ok = true)
    (he : seq.final.EqualTo cand = true) :
    MQuery.Streak (P ++ [seq]) cand (ct + 1) := by
  obtain ⟨pre, s0, rest, hP, h0, hf, hct, hall⟩ := h
  refine ⟨pre, s0, rest ++ [seq], by simp [hP], h0, hf, ?_, ?_⟩
  · rw [List.filter_append, List.filter_cons_of_pos hs]
    simp only [List.filter_nil, List.length_append, List.length_singleton, Nat.cast_add,
      Nat.cast_one]
    omega
  · intro s hmem hok
    rcases List.mem_append.mp hmem with hm | hm
    · exact hall s hm hok
    · rw [List.mem_singleton] at hm
      subst hm
      exact he

theorem streak_reset (P : List OutputSeq) {seq : OutputSeq} (hs : seq.ok = true) :
    MQuery.Streak (P ++ [seq]) seq.final 1 :=
  ⟨P, seq, [], rfl, hs, rfl, by simp, fun _ hm _ => by cases hm⟩

theorem loop_streak (b : Int) (hb0 : 0 ≤ b) (hb1 : b < 9223372036854775807)
    (o : Output) (n : Nat) :
    ∀ (runs P : List OutputSeq) (cand : Output) (ct : Int),
      0 ≤ ct → ct ≤ b + 1 → (ct = 0 ∨ MQuery.Streak P cand ct) →
      (b < ct → ∃ s, P.getLast? = some s ∧ s.ok = true) →
      MQuery.loop b cand ct P.length runs = some (o, n) →
      ∃ k, n = P.length + k ∧ k ≤ runs.length ∧
        MQuery.Streak (P ++ runs.take k) o (b + 1) ∧
        ∃ s, (P ++ runs.take k).getLast? = some s ∧ s.ok = true := by
  intro runs
  induction runs with
  | nil =>
    intro P cand ct h0 h1 hst hlast hloop
    by_cases hle : ct ≤ b
    · rw [loop_nil b cand ct _ hle] at hloop
      cases hloop
    · rw [loop_exit b cand ct _ _ hle] at hloop
      obtain ⟨rfl, rfl⟩ := Prod.mk.inj (Option.some.inj hloop)
      have hct : ct = b + 1 := by omega
      refine ⟨0, rfl, Nat.le_refl _, ?_, ?_⟩
      · rcases hst with hz | hst
        · omega
        · simpa [hct] using hst
      · simpa using hlast (by omega)
  | cons seq rest ih =>
    intro P cand ct h0 h1 hst hlast hloop
    have hlen : P.length + 1 = (P ++ [seq]).length := by simp
    have finish : (∃ k, n = (P ++ [seq]).length + k ∧ k ≤ rest.length ∧
          MQuery.Streak ((P ++ [seq]) ++ rest.take k) o (b + 1) ∧
          ∃ s, ((P ++ [seq]) ++ rest.take k).getLast? = some s ∧ s.ok = true) →
        ∃ k, n = P.length + k ∧ k ≤ (seq :: rest).length ∧
          MQuery.Streak (P ++ (seq :: rest).take k) o (b + 1) ∧
          ∃ s, (P ++ (seq :: rest).take k).getLast? = some s ∧ s.ok = true := by
      rintro ⟨k, hn, hk, hS, hL⟩
      refine ⟨k + 1, ?_, ?_, ?_, ?_⟩
      · rw [hn, ← hlen]; omega
      · simpa using hk
      · simpa using hS
      · simpa using hL
    by_cases hle : ct ≤ b
    · cases hs : seq.ok with
      | false =>
        rw [loop_skip b cand ct _ seq rest hle hs, hlen] at hloop
        apply finish
        refine ih (P ++ [seq]) cand ct h0 h1 ?_ (fun hlt => by omega) hloop
        rcases hst with hz | hst
        · exact Or.inl hz
        · exact Or.inr (streak_skip hst hs)
      | true =>
        have hlast2 : ∃ s, (P ++ [seq]).getLast? = some s ∧ s.ok = true :=
          ⟨seq, by simp, hs⟩
        by_cases hc : 0 < ct ∧ seq.final.EqualTo cand = true
        · rw [loop_keep b cand ct _ seq rest hle hs hc, hlen,
            wrapInt_id (ct + 1) (by omega) (by omega)] at hloop
          apply finish
          refine ih (P ++ [seq]) cand (ct + 1) (by omega) (by omega) ?_ (fun _ => hlast2) hloop
          rcases hst with hz | hst
          · omega
          · exact Or.inr (streak_keep hst hs hc.2)
        · rw [loop_reset b cand ct _ seq rest hle hs hc, hlen] at hloop
          apply finish
          exact ih (P ++ [seq]) seq.final 1 (by omega) (by omega)
            (Or.inr (streak_reset P hs)) (fun _ => hlast2) hloop
    · rw [loop_exit b cand ct _ _ hle] at hloop
      obtain ⟨rfl, rfl⟩ := Prod.mk.inj (Option.some.inj hloop)
      have hct : ct = b + 1 := by omega
      refine ⟨0, rfl, Nat.zero_le _, ?_, ?_⟩
      · rcases hst with hz | hst
        · omega
        · simpa [hct] using hst
      · simpa using hlast (by omega)
theorem mquery_post (b : Int) (hb : 0 ≤ b) (runs : List OutputSeq) (o : Output) (n : Nat)
    (h : MQuery b runs = some (o, n)) :
    n ≤ runs.length ∧ MQuery.Streak (runs.take n) o (b + 1) ∧
      ∃ s, (runs.take n).getLast? = some s ∧ s.ok = true := by
  by_cases hb1 : b < 9223372036854775807
  · have := loop_streak b hb hb1 o n runs [] ∅ 0 (le_refl 0) (by omega) (Or.inl rfl)
      (fun hlt => by omega) h
    obtain ⟨k, hn, hk, hS, hL⟩ := this
    have hnk : n = k := by simpa using hn
    subst hnk
    exact ⟨hk, by simpa using hS, by simpa using hL⟩
  · have := loop_never b (by omega) runs ∅ 0 0 (by omega)
    unfold MQuery at h
    rw [this] at h
    cases h

theorem loop_finals (b : Int) : ∀ (L1 L2 : List OutputSeq) (cand : Output) (ct : Int)
    (c1 c2 : Nat), (∀ s ∈ L1, s.ok = true) → (∀ s ∈ L2, s.ok = true) →
    L1.map OutputSeq.final = L2.map OutputSeq.final →
    (MQuery.loop b cand ct c1 L1).map Prod.fst = (MQuery.loop b cand ct c2 L2).map Prod.fst
  | [], L2, cand, ct, c1, c2, _, _, h => by
    have : L2 = [] := by simpa using h.symm
    subst this
    by_cases hle : ct ≤ b
    · simp [loop_nil b cand ct _ hle]
    · simp [loop_exit b cand ct _ _ hle]
  | s1 :: r1, [], _, _, _, _, _, _, h => by simp at h
  | s1 :: r1, s2 :: r2, cand, ct, c1, c2, h1, h2, h => by
    rw [List.map_cons, List.map_cons, List.cons.injEq] at h
    have ok1 := h1 s1 (List.mem_cons_self _ _)
    have ok2 := h2 s2 (List.mem_cons_self _ _)
    have ih := fun cand ct c1 c2 => loop_finals b r1 r2 cand ct c1 c2
      (fun s hs => h1 s (List.mem_cons_of_mem _ hs))
      (fun s hs => h2 s (List.mem_cons_of_mem _ hs)) h.2
    by_cases hle : ct ≤ b
    · by_cases hc : 0 < ct ∧ s1.final.EqualTo cand = true
      · have hc2 : 0 < ct ∧ s2.final.EqualTo cand = true := by rw [← h.1]; exact hc
        rw [loop_keep b cand ct c1 s1 _ hle ok1 hc, loop_keep b cand ct c2 s2 _ hle ok2 hc2]
        exact ih _ _ _ _
      · have hc2 : ¬ (0 < ct ∧ s2.final.EqualTo cand = true) := by rw [← h.1]; exact hc
        rw [loop_reset b cand ct c1 s1 _ hle ok1 hc, loop_reset b cand ct c2 s2 _ hle ok2 hc2,
          h.1]
        exact ih _ _ _ _
    · simp [loop_exit b cand ct _ _ hle]

/-- C1: when the loop of MQuery ends for a bound b ≥ 0, it ends right after a
successful run, and the runs consumed split as `pre ++ s0 :: rest` where s0 is
a successful run whose final Output is the one returned, rest holds exactly b
successful runs, and the final Output of each of them is EqualTo the returned
one: the candidate has recurred for b+1 consecutive successful runs. -/
theorem MQuery_streak (ibound : Int) (hb : 0 ≤ ibound) (runs : List OutputSeq)
    (o : Output) (n : Nat) (h : MQuery ibound runs = some (o, n)) :
    n ≤ runs.length ∧
      (∃ s, (runs.take n).getLast? = some s ∧ s.ok = true) ∧
      ∃ pre s0 rest, runs.take n = pre ++ s0 :: rest ∧ s0.ok = true ∧ s0.final = o ∧
        ((rest.filter OutputSeq.ok).length : Int) = ibound ∧
        ∀ s ∈ rest, s.ok = true → s.final.EqualTo o = true := by
  obtain ⟨hn, ⟨pre, s0, rest, hP, h0, hf, hct, hall⟩, hL⟩ := mquery_post ibound hb runs o n h
  exact ⟨hn, hL, pre, s0, rest, hP, h0, hf, by omega, hall⟩

/-- Witness of C1: bound 3, six runs of which the third fails and the first
has another final Output. -/
theorem MQuery_streak_witness :
    (0 : Int) ≤ 3 ∧ MQuery 3 MQuery.sampleRuns = some (Output.cA, 6) ∧
      (6 ≤ MQuery.sampleRuns.length ∧
        (∃ s, (MQuery.sampleRuns.take 6).getLast? = some s ∧ s.ok = true) ∧
        ∃ pre s0 rest, MQuery.sampleRuns.take 6 = pre ++ s0 :: rest ∧
          s0.ok = true ∧ s0.final = Output.cA ∧
          ((rest.filter OutputSeq.ok).length : Int) = 3 ∧
          ∀ s ∈ rest, s.ok = true → s.final.EqualTo Output.cA = true) :=
  ⟨by decide, rfl, MQuery_streak 3 (by decide) MQuery.sampleRuns Output.cA 6 rfl⟩

/-- C2: runs without output leave candidate and streak alone.  Deleting all of
them, or inserting one anywhere, changes neither whether the loop ends nor the
Output returned; and an Output is returned either without any run (negative
bound) or as the final element of a successful run, right after a successful
run. -/
theorem MQuery_skips_empty (ibound : Int) (runs : List OutputSeq) :
    (MQuery ibound (runs.filter OutputSeq.ok)).map Prod.fst
        = (MQuery ibound runs).map Prod.fst ∧
      (∀ pre post : List OutputSeq,
        (MQuery ibound (pre ++ [] :: post)).map Prod.fst
          = (MQuery ibound (pre ++ post)).map Prod.fst) ∧
      ∀ o n, MQuery ibound runs = some (o, n) →
        (ibound < 0 ∧ n = 0) ∨
          ((∃ s, (runs.take n).getLast? = some s ∧ s.ok = true) ∧
            ∃ s ∈ runs.take n, s.ok = true ∧ s.final = o) := by
  refine ⟨loop_filter ibound runs ∅ 0 0 0, ?_, ?_⟩
  · intro pre post
    have h1 := loop_filter ibound (pre ++ [] :: post) ∅ 0 0 0
    have h2 := loop_filter ibound (pre ++ post) ∅ 0 0 0
    have hf : (pre ++ [] :: post).filter OutputSeq.ok = (pre ++ post).filter OutputSeq.ok := by
      rw [List.filter_append, List.filter_append,
        List.filter_cons_of_neg (by simp [OutputSeq.ok])]
    rw [hf] at h1
    exact h1.symm.trans h2
  · intro o n h
    by_cases hb : 0 ≤ ibound
    · right
      obtain ⟨_, ⟨pre, s0, rest, hP, h0, hf, _, _⟩, hL⟩ := mquery_post ibound hb runs o n h
      exact ⟨hL, s0, by rw [hP]; simp, h0, hf⟩
    · left
      unfold MQuery at h
      rw [loop_exit ibound ∅ 0 0 runs (by omega)] at h
      obtain ⟨_, rfl⟩ := Prod.mk.inj (Option.some.inj h)
      exact ⟨by omega, rfl⟩

/-- C8, as stated, fails: with the default bound 3, a call whose four runs all
end in "A" on port C and a call whose four runs all end in an empty port C
return Outputs that differ on C and are not EqualTo one another. -/
theorem MQuery_not_reproducible :
    MQuery 3 (List.replicate 4 [Output.cA]) = some (Output.cA, 4) ∧
      MQuery 3 (List.replicate 4 [Output.cNone]) = some (Output.cNone, 4) ∧
      Output.cA.lookup "C" ≠ Output.cNone.lookup "C" ∧
      Output.cA.EqualTo Output.cNone = false ∧ Output.cNone.EqualTo Output.cA = false :=
  ⟨rfl, rfl, by decide, by decide, by decide⟩

/-- C8, amended: two calls of MQuery return equal Outputs (and end or not
alike) whenever the successful runs underlying them have the same sequence of
final Outputs, however the runs differ otherwise. -/
theorem MQuery_reproducible (ibound : Int) (runs1 runs2 : List OutputSeq)
    (h : (runs1.filter OutputSeq.ok).map OutputSeq.final
      = (runs2.filter OutputSeq.ok).map OutputSeq.final) :
    (MQuery ibound runs1).map Prod.fst = (MQuery ibound runs2).map Prod.fst := by
  have h1 := loop_filter ibound runs1 ∅ 0 0 0
  have h2 := loop_filter ibound runs2 ∅ 0 0 0
  have h3 := loop_finals ibound (runs1.filter OutputSeq.ok) (runs2.filter OutputSeq.ok) ∅ 0 0 0
    (fun s hs => (List.mem_filter.mp hs).2) (fun s hs => (List.mem_filter.mp hs).2) h
  exact h1.symm.trans (h3.trans h2)

/-- Witness of the amended C8: the runs of the two calls differ in a failed
run and in an earlier element, yet end alike. -/
theorem MQuery_reproducible_witness :
    ([[Output.cA]].filter OutputSeq.ok).map OutputSeq.final
        = ([[], [Output.cNone, Output.cA]].filter OutputSeq.ok).map OutputSeq.final ∧
      (MQuery 0 [[Output.cA]]).map Prod.fst
        = (MQuery 0 [[], [Output.cNone, Output.cA]]).map Prod.fst :=
  ⟨rfl, MQuery_reproducible 0 [[Output.cA]] [[], [Output.cNone, Output.cA]] rfl⟩

/-! ### Equivalence query -/

/-- C11: for every Oracle and every hypothesis, EQuery returns the empty
InputSeq with found = false; the result is the same whatever the Run of the
hypothesis does, also when it never returns. -/
theorem EQuery_stub (self : Oracle) (hypo : Executable) :
    EQuery self hypo = ([], false) ∧
      EQuery self hypo = EQuery self Executable.stuck :=
  ⟨rfl, rfl⟩

/-- C12, as stated, fails: on the alternator the stub returns, for a
hypothesis that never returns and for one that does alike, exactly the value
of a genuine negative result. -/
theorem EQuery_no_signal :
    EQuery Alternator.GetOracle Executable.stuck = EQuery.negative ∧
      EQuery Alternator.GetOracle Executable.silent = EQuery.negative :=
  ⟨rfl, rfl⟩

/-- C12, amended: the stub returns the value of a genuine negative result,
so no test applied to the returned value tells the two apart; the result
carries no signal of being unfinished. -/
theorem EQuery_indistinguishable (self : Oracle) (hypo : Executable)
    (test : InputSeq × Bool → Bool) :
    EQuery self hypo = EQuery.negative ∧ test (EQuery self hypo) = test EQuery.negative :=
  ⟨rfl, rfl⟩

/-! ### The order of the alphabet -/

theorem step_doubled (P : List String) (q : String) (rel : List Input)
    (hk : GetInputs.Keyed P rel) (hq : q ∉ P) (h : GetInputs.Doubled P rel) :
    GetInputs.Doubled (P ++ [q]) (rel.map (GetInputs.off q) ++ rel.map (GetInputs.on q)) := by
  obtain ⟨hlen, hbits⟩ := h
  refine ⟨by simp [hlen, pow_succ]; ring, ?_⟩
  intro i x hx j p hp
  have hj : j < P.length ∨ (j = P.length ∧ p = q) := by
    by_cases hjl : j < P.length
    · exact Or.inl hjl
    · right
      rw [List.getElem?_append_right (by omega)] at hp
      have hj0 : j - P.length = 0 := by
        by_contra hne
        rw [List.getElem?_eq_none (by simp; omega)] at hp
        cases hp
      rw [hj0] at hp
      simp at hp
      exact ⟨by omega, hp.symm⟩
  by_cases hi : i < rel.length
  · rw [List.getElem?_append_left (by simpa using hi), List.getElem?_map] at hx
    obtain ⟨y, hy, rfl⟩ := Option.map_eq_some'.mp hx
    rw [off_lookup]
    rcases hj with hjl | ⟨hjm, hpq⟩
    · rw [List.getElem?_append_left hjl] at hp
      have hpP : p ∈ P := List.getElem?_mem hp
      rw [if_neg (fun e : p = q => hq (e ▸ hpP))]
      exact hbits i y hy j p hp
    · subst hpq hjm
      rw [if_pos rfl, Nat.testBit_lt_two_pow (by rw [← hlen]; exact hi)]
  · rw [List.getElem?_append_right (by simpa using hi), List.length_map,
      List.getElem?_map] at hx
    obtain ⟨y, hy, rfl⟩ := Option.map_eq_some'.mp hx
    have hyr : y ∈ rel := List.getElem?_mem hy
    have hi2 : i - rel.length < rel.length := by
      by_contra hge
      rw [List.getElem?_eq_none (by omega)] at hy
      cases hy
    have hsplit : i = 2 ^ P.length + (i - rel.length) := by rw [← hlen]; omega
    rw [on_lookup q y (hk y hyr).1]
    rcases hj with hjl | ⟨hjm, hpq⟩
    · rw [List.getElem?_append_left hjl] at hp
      have hpP : p ∈ P := List.getElem?_mem hp
      rw [if_neg (fun e : p = q => hq (e ▸ hpP)), hsplit, Nat.testBit_two_pow_add_gt hjl]
      exact hbits _ y hy j p hp
    · subst hpq hjm
      rw [if_pos rfl, hsplit, Nat.testBit_two_pow_add_eq,
        Nat.testBit_lt_two_pow (by rw [← hlen]; exact hi2)]
      rfl

theorem outer_doubled : ∀ (ports P : List String) (rel : List Input),
    (P ++ ports).Nodup → GetInputs.Keyed P rel → GetInputs.Doubled P rel →
    GetInputs.Doubled (P ++ ports) (GetInputs.outer ports rel)
  | [], P, rel, _, _, h => by simpa [GetInputs.outer] using h
  | q :: ports, P, rel, hnd, hk, h => by
    rw [outer_cons]
    have hq : q ∉ P := by
      intro hqP
      have := (List.nodup_append.mp hnd).2.2
      exact this hqP (List.mem_cons_self _ _)
    have hnd2 : ((P ++ [q]) ++ ports).Nodup := by simpa using hnd
    have := outer_doubled ports (P ++ [q]) _ hnd2 (step_keyed P q rel hk)
      (step_doubled P q rel hk hq h)
    simpa using this

theorem doubled_init : GetInputs.Doubled [] [{ Datum := ∅, IsTime := false }] :=
  ⟨rfl, fun _ _ _ j p hp => by simp at hp⟩
/-- C13: with an empty cache and pairwise distinct input ports p_0 .. p_(n-1),
the list returned by GetInputs has 2^n + 1 elements; for every i < 2^n its
i-th element is the non-time Input whose keys are the declared ports and that
maps p_j to bit j of i; the element at index 2^n, the last, is the
time-advance Input. -/
theorem GetInputs_doubling (o : Oracle) (hc : o.Inputs = []) (hd : o.InPorts.Nodup) :
    (GetInputs o).1.length = 2 ^ o.InPorts.length + 1 ∧
      (∀ i, i < 2 ^ o.InPorts.length →
        ∃ x, (GetInputs o).1[i]? = some x ∧ x.IsTime = false ∧
          (∀ k, (x.Datum.lookup k).isSome = true ↔ k ∈ o.InPorts) ∧
          ∀ (j : Nat) (p : String), o.InPorts[j]? = some p →
            x.Datum.lookup p = some (i.testBit j)) ∧
      (GetInputs o).1[2 ^ o.InPorts.length]? = some Input.tick := by
  have hD := outer_doubled o.InPorts [] _ (by simpa using hd) keyed_init doubled_init
  rw [List.nil_append] at hD
  obtain ⟨hlen, hbits⟩ := hD
  rw [getInputs_fresh o hc]
  refine ⟨by simp [hlen], ?_, ?_⟩
  · intro i hi
    have hil : i < (GetInputs.outer o.InPorts [{ Datum := ∅, IsTime := false }]).length := by
      rw [hlen]; exact hi
    rw [List.getElem?_append_left hil]
    obtain ⟨x, hx⟩ : ∃ x, (GetInputs.outer o.InPorts [{ Datum := ∅, IsTime := false }])[i]?
        = some x := ⟨_, List.getElem?_eq_getElem hil⟩
    have hxm := List.getElem?_mem hx
    exact ⟨x, hx, (outer_init_keyed o.InPorts x hxm).1, (outer_init_keyed o.InPorts x hxm).2,
      hbits i x hx⟩
  · rw [List.getElem?_append_right (by rw [hlen]), hlen, Nat.sub_self]
    rfl

/-- Witness of C13 on the alternator: four subsets of the ports A and B in
doubling order, then the time-advance Input. -/
theorem GetInputs_doubling_witness :
    Alternator.GetOracle.Inputs = [] ∧ Alternator.GetOracle.InPorts.Nodup ∧
      ((GetInputs Alternator.GetOracle).1.length = 2 ^ Alternator.GetOracle.InPorts.length + 1 ∧
        (∀ i, i < 2 ^ Alternator.GetOracle.InPorts.length →
          ∃ x, (GetInputs Alternator.GetOracle).1[i]? = some x ∧ x.IsTime = false ∧
            (∀ k, (x.Datum.lookup k).isSome = true ↔ k ∈ Alternator.GetOracle.InPorts) ∧
            ∀ (j : Nat) (p : String), Alternator.GetOracle.InPorts[j]? = some p →
              x.Datum.lookup p = some (i.testBit j)) ∧
        (GetInputs Alternator.GetOracle).1[2 ^ Alternator.GetOracle.InPorts.length]?
          = some Input.tick) :=
  ⟨rfl, by decide, GetInputs_doubling Alternator.GetOracle rfl (by decide)⟩

/-! ### Equality of Outputs -/

theorem single_refl (x : SingleOutput) : x.EqualTo x = true := by
  unfold SingleOutput.EqualTo
  cases h : x.IsEmpty <;> simp

theorem single_eq_of_equalTo (x y : SingleOutput) (hx : x.wf = true) (hy : y.wf = true)
    (h : x.EqualTo y = true) : x = y := by
  obtain ⟨dx, ex⟩ := x
  obtain ⟨dy, ey⟩ := y
  cases ex <;> cases ey <;>
    simp_all [SingleOutput.EqualTo, SingleOutput.wf]

theorem wf_lookup {o : Output} (h : o.wf = true) {k : String} {v : SingleOutput}
    (hl : o.lookup k = some v) : v.wf = true := by
  have hm : (⟨k, v⟩ : Sigma fun _ : String => SingleOutput) ∈ o.entries :=
    AList.mem_lookup_iff.mp hl
  exact List.all_eq_true.mp h _ hm

theorem equalTo_iff (a b : Output) :
    a.EqualTo b = true ↔
      ∀ k ∈ a.keys, (GoMap.index a k SingleOutput.zero).EqualTo
        (GoMap.index b k SingleOutput.zero) = true := by
  unfold Output.EqualTo
  exact List.all_eq_true

theorem equalTo_of_same (a b : Output) (h : Output.same a b) : a.EqualTo b = true := by
  rw [equalTo_iff]
  intro k _
  unfold GoMap.index
  rw [h k]
  exact single_refl _

theorem lookup_of_mem_keys {o : Output} {k : String} (h : k ∈ o.keys) :
    ∃ v, o.lookup k = some v := by
  have := AList.lookup_isSome.mpr (AList.mem_keys.mpr h)
  exact Option.isSome_iff_exists.mp this

theorem same_of_equalTo (a b : Output) (ha : a.wf = true) (hb : b.wf = true)
    (hk : ∀ k, k ∈ a.keys ↔ k ∈ b.keys) (h : a.EqualTo b = true) : Output.same a b := by
  rw [equalTo_iff] at h
  intro k
  by_cases hka : k ∈ a.keys
  · obtain ⟨x, hx⟩ := lookup_of_mem_keys hka
    obtain ⟨y, hy⟩ := lookup_of_mem_keys ((hk k).mp hka)
    have := h k hka
    unfold GoMap.index at this
    rw [hx, hy] at this
    rw [hx, hy, single_eq_of_equalTo x y (wf_lookup ha hx) (wf_lookup hb hy) this]
  · have hkb : k ∉ b.keys := fun hh => hka ((hk k).mpr hh)
    rw [AList.lookup_eq_none.mpr (fun hh => hka (AList.mem_keys.mp hh)),
      AList.lookup_eq_none.mpr (fun hh => hkb (AList.mem_keys.mp hh))]

/-- C15: for Outputs with the same ports whose entries are as SeqSimulate
stores them, EqualTo holds exactly when the two are the same map; on such
Outputs EqualTo is reflexive, symmetric and transitive. -/
theorem Output_EqualTo_same (a b c : Output)
    (ha : a.wf = true) (hb : b.wf = true) (hc : c.wf = true)
    (hab : ∀ k, k ∈ a.keys ↔ k ∈ b.keys) (hbc : ∀ k, k ∈ b.keys ↔ k ∈ c.keys) :
    (a.EqualTo b = true ↔ Output.same a b) ∧
      a.EqualTo a = true ∧
      (a.EqualTo b = true → b.EqualTo a = true) ∧
      (a.EqualTo b = true → b.EqualTo c = true → a.EqualTo c = true) := by
  refine ⟨⟨same_of_equalTo a b ha hb hab, equalTo_of_same a b⟩,
    equalTo_of_same a a (fun _ => rfl), ?_, ?_⟩
  · intro h
    have := same_of_equalTo a b ha hb hab h
    exact equalTo_of_same b a fun k => (this k).symm
  · intro h1 h2
    have s1 := same_of_equalTo a b ha hb hab h1
    have s2 := same_of_equalTo b c hb hc hbc h2
    exact equalTo_of_same a c fun k => (s1 k).trans (s2 k)

/-- Witness of C15: Outputs over the one port C, with a datum and without. -/
theorem Output_EqualTo_same_witness :
    Output.cA.wf = true ∧ Output.cNone.wf = true ∧
      (∀ k, k ∈ Output.cA.keys ↔ k ∈ Output.cNone.keys) ∧
      ((Output.cA.EqualTo Output.cNone = true ↔ Output.same Output.cA Output.cNone) ∧
        Output.cA.EqualTo Output.cA = true ∧
        (Output.cA.EqualTo Output.cNone = true → Output.cNone.EqualTo Output.cA = true) ∧
        (Output.cA.EqualTo Output.cNone = true → Output.cNone.EqualTo Output.cA = true →
          Output.cA.EqualTo Output.cA = true)) :=
  ⟨by decide, by decide, fun _ => Iff.rfl,
    Output_EqualTo_same Output.cA Output.cNone Output.cA (by decide) (by decide) (by decide)
      (fun _ => Iff.rfl) (fun _ => Iff.rfl)⟩

/-! ### Stabilisation on a constant tail -/

theorem loop_tail_keep (b : Int) (hb1 : b < 9223372036854775807) (o : Output) :
    ∀ (tail : List OutputSeq) (cand : Output) (ct : Int) (count : Nat),
      1 ≤ ct → ct ≤ b + 1 → Output.same cand o →
      (∀ s ∈ tail, s.ok = true ∧ Output.same s.final o) →
      b + 1 - ct ≤ tail.length →
      ∃ n : Nat, MQuery.loop b cand ct count tail = some (cand, n) ∧
        (n : Int) = count + (b + 1 - ct)
  | [], cand, ct, count, h1, h2, _, _, hlen => by
    have hct : ¬ ct ≤ b := by simp at hlen; omega
    exact ⟨count, loop_exit b cand ct count [] hct, by simp at hlen; omega⟩
  | s :: r, cand, ct, count, h1, h2, hc, ht, hlen => by
    by_cases hle : ct ≤ b
    · obtain ⟨hok, hso⟩ := ht s (List.mem_cons_self _ _)
      have heq : s.final.EqualTo cand = true :=
        equalTo_of_same _ _ fun k => (hso k).trans (hc k).symm
      rw [loop_keep b cand ct count s r hle hok ⟨by omega, heq⟩,
        wrapInt_id (ct + 1) (by omega) (by omega)]
      obtain ⟨n, hn, hnn⟩ := loop_tail_keep b hb1 o r cand (ct + 1) (count + 1) (by omega)
        (by omega) hc (fun t ht2 => ht t (List.mem_cons_of_mem _ ht2))
        (by simp at hlen; omega)
      exact ⟨n, hn, by push_cast at hnn ⊢; omega⟩
    · exact ⟨count, loop_exit b cand ct count _ hle, by omega⟩

theorem loop_tail (b : Int) (hb0 : 0 ≤ b) (hb1 : b < 9223372036854775807)
    (ports : List String) (o : Output) (tail : List OutputSeq)
    (ht : ∀ s ∈ tail, s.ok = true ∧ Output.same s.final o)
    (hw : ∀ s ∈ tail, s.final.wf = true ∧ ∀ k, k ∈ s.final.keys ↔ k ∈ ports)
    (hlen : b + 1 ≤ tail.length)
    (cand : Output) (ct : Int) (count : Nat) (_h0 : 0 ≤ ct) (h1 : ct ≤ b)
    (hcand : 0 < ct → cand.wf = true ∧ ∀ k, k ∈ cand.keys ↔ k ∈ ports) :
    ∃ (res : Output) (n : Nat), MQuery.loop b cand ct count tail = some (res, n) ∧
      count < n ∧ (n : Int) ≤ count + b + 1 ∧ Output.same res o := by
  cases tail with
  | nil => simp at hlen; omega
  | cons s r =>
    obtain ⟨hok, hso⟩ := ht s (List.mem_cons_self _ _)
    obtain ⟨hswf, hsk⟩ := hw s (List.mem_cons_self _ _)
    have htr : ∀ t ∈ r, t.ok = true ∧ Output.same t.final o :=
      fun t ht2 => ht t (List.mem_cons_of_mem _ ht2)
    have hlr : b ≤ r.length := by simp at hlen; omega
    by_cases hc : 0 < ct ∧ s.final.EqualTo cand = true
    · obtain ⟨hcw, hck⟩ := hcand hc.1
      have hsc : Output.same s.final cand :=
        same_of_equalTo _ _ hswf hcw (fun k => (hsk k).trans (hck k).symm) hc.2
      have hco : Output.same cand o := fun k => (hsc k).symm.trans (hso k)
      rw [loop_keep b cand ct count s r h1 hok hc, wrapInt_id (ct + 1) (by omega) (by omega)]
      obtain ⟨n, hn, hnn⟩ := loop_tail_keep b hb1 o r cand (ct + 1) (count + 1) (by omega)
        (by omega) hco htr (by omega)
      exact ⟨cand, n, hn, by push_cast at hnn; omega, by push_cast at hnn; omega, hco⟩
    · rw [loop_reset b cand ct count s r h1 hok hc]
      obtain ⟨n, hn, hnn⟩ := loop_tail_keep b hb1 o r s.final 1 (count + 1) (by omega)
        (by omega) hso htr (by omega)
      exact ⟨s.final, n, hn, by push_cast at hnn; omega, by push_cast at hnn; omega, hso⟩

theorem loop_ahead (b : Int) (hb0 : 0 ≤ b) (hb1 : b < 9223372036854775807)
    (ports : List String) (o : Output) (tail : List OutputSeq)
    (ht : ∀ s ∈ tail, s.ok = true ∧ Output.same s.final o)
    (hw : ∀ s ∈ tail, s.final.wf = true ∧ ∀ k, k ∈ s.final.keys ↔ k ∈ ports)
    (hlen : b + 1 ≤ tail.length) :
    ∀ (pre : List OutputSeq) (cand : Output) (ct : Int) (count : Nat),
      0 ≤ ct → ct ≤ b →
      (0 < ct → cand.wf = true ∧ ∀ k, k ∈ cand.keys ↔ k ∈ ports) →
      (∀ s ∈ pre, s.ok = true → s.final.wf = true ∧ ∀ k, k ∈ s.final.keys ↔ k ∈ ports) →
      MQuery.loop b cand ct count pre = none →
      ∃ (res : Output) (n : Nat), MQuery.loop b cand ct count (pre ++ tail) = some (res, n) ∧
        count + pre.length < n ∧ (n : Int) ≤ count + pre.length + b + 1 ∧ Output.same res o
  | [], cand, ct, count, h0, h1, hcand, _, _ => by
    simpa using loop_tail b hb0 hb1 ports o tail ht hw hlen cand ct count h0 h1 hcand
  | s :: p, cand, ct, count, h0, h1, hcand, hpw, hnone => by
    have hpw2 : ∀ t ∈ p, t.ok = true →
        t.final.wf = true ∧ ∀ k, k ∈ t.final.keys ↔ k ∈ ports :=
      fun t ht2 => hpw t (List.mem_cons_of_mem _ ht2)
    have fin : ∀ (c2 : Output) (ct2 : Int),
        (∃ (res : Output) (n : Nat),
          MQuery.loop b c2 ct2 (count + 1) (p ++ tail) = some (res, n) ∧
          count + 1 + p.length < n ∧ (n : Int) ≤ (count + 1 : Nat) + p.length + b + 1 ∧
          Output.same res o) →
        ∃ (res : Output) (n : Nat),
          MQuery.loop b c2 ct2 (count + 1) (p ++ tail) = some (res, n) ∧
          count + (s :: p).length < n ∧ (n : Int) ≤ count + (s :: p).length + b + 1 ∧
          Output.same res o := by
      rintro c2 ct2 ⟨res, n, hn, ha, hb, hs⟩
      refine ⟨res, n, hn, ?_, ?_, hs⟩
      · simp only [List.length_cons]; omega
      · simp only [List.length_cons]; push_cast at hb ⊢; omega
    rw [List.cons_append]
    cases hs : s.ok with
    | false =>
      rw [loop_skip b cand ct count s _ h1 hs] at hnone ⊢
      exact fin _ _ (loop_ahead b hb0 hb1 ports o tail ht hw hlen p cand ct (count + 1)
        h0 h1 hcand hpw2 hnone)
    | true =>
      obtain ⟨hswf, hsk⟩ := hpw s (List.mem_cons_self _ _) hs
      by_cases hc : 0 < ct ∧ s.final.EqualTo cand = true
      · rw [loop_keep b cand ct count s _ h1 hs hc,
          wrapInt_id (ct + 1) (by omega) (by omega)] at hnone ⊢
        have hle : ct + 1 ≤ b := by
          by_contra hgt
          rw [loop_exit b cand (ct + 1) _ _ hgt] at hnone
          cases hnone
        exact fin _ _ (loop_ahead b hb0 hb1 ports o tail ht hw hlen p cand (ct + 1)
          (count + 1) (by omega) hle (fun _ => hcand hc.1) hpw2 hnone)
      · rw [loop_reset b cand ct count s _ h1 hs hc] at hnone ⊢
        have hle : (1 : Int) ≤ b := by
          by_contra hgt
          rw [loop_exit b s.final 1 _ _ hgt] at hnone
          cases hnone
        exact fin _ _ (loop_ahead b hb0 hb1 ports o tail ht hw hlen p s.final 1
          (count + 1) (by omega) hle (fun _ => ⟨hswf, hsk⟩) hpw2 hnone)
/-- C14, as stated, fails in two ways.  With bound 3, four runs ending in an
empty port C followed by runs that all end in "A" on C: the loop has ended
before the constant tail and returns the earlier candidate, not "A".  With
the bound at the largest int, the loop never ends, however many runs ending
in "A" it is given. -/
theorem MQuery_earlier_candidate :
    MQuery 3 (List.replicate 4 [Output.cNone] ++ MQuery.sampleTail)
        = some (Output.cNone, 4) ∧
      Output.cNone.lookup "C" ≠ Output.cA.lookup "C" ∧
      Output.cNone.wf = true ∧ Output.cA.wf = true ∧
      Output.cNone.keys = Output.cA.keys ∧
      ¬ ∃ n, (MQuery 9223372036854775807 (List.replicate n [Output.cA])).isSome = true := by
  refine ⟨rfl, by decide, by decide, by decide, rfl, ?_⟩
  rintro ⟨n, hn⟩
  have := loop_never 9223372036854775807 (le_refl _) (List.replicate n [Output.cA]) ∅ 0 0
    (by omega)
  unfold MQuery at hn
  rw [this] at hn
  cases hn

/-- C14, amended: for a bound 0 ≤ b < 2^63 - 1 and runs whose final Outputs
are well-formed over the same ports, if the loop has not ended on the runs
`pre` and every one of the following runs `tail` (at least b+1 of them) is
successful with the same final Output o, then MQuery ends after consuming at
least one and at most b+1 runs of `tail`, and returns the map o. -/
theorem MQuery_stabilises (ibound : Int) (hb0 : 0 ≤ ibound)
    (hb1 : ibound < 9223372036854775807) (ports : List String) (o : Output)
    (pre tail : List OutputSeq)
    (hwf : ∀ s ∈ pre ++ tail, s.ok = true →
      s.final.wf = true ∧ ∀ k, k ∈ s.final.keys ↔ k ∈ ports)
    (htail : ∀ s ∈ tail, s.ok = true ∧ Output.same s.final o)
    (hlen : ibound + 1 ≤ tail.length)
    (hpre : MQuery ibound pre = none) :
    ∃ (res : Output) (n : Nat), MQuery ibound (pre ++ tail) = some (res, n) ∧
      pre.length < n ∧ (n : Int) ≤ pre.length + ibound + 1 ∧ Output.same res o := by
  have := loop_ahead ibound hb0 hb1 ports o tail htail
    (fun s hs => hwf s (List.mem_append_right _ hs) (htail s hs).1) hlen pre ∅ 0 0
    (le_refl 0) hb0 (fun h => absurd h (by omega))
    (fun s hs => hwf s (List.mem_append_left _ hs)) hpre
  simpa [MQuery] using this

/-- Witness of the amended C14: bound 3, two runs before four runs ending in
"A" on port C. -/
theorem MQuery_stabilises_witness :
    (0 : Int) ≤ 3 ∧ (3 : Int) < 9223372036854775807 ∧
      (∀ s ∈ MQuery.samplePre ++ MQuery.sampleTail, s.ok = true →
        s.final.wf = true ∧ ∀ k, k ∈ s.final.keys ↔ k ∈ ["C"]) ∧
      (∀ s ∈ MQuery.sampleTail, s.ok = true ∧ Output.same s.final Output.cA) ∧
      (3 : Int) + 1 ≤ MQuery.sampleTail.length ∧
      MQuery 3 MQuery.samplePre = none ∧
      ∃ (res : Output) (n : Nat),
        MQuery 3 (MQuery.samplePre ++ MQuery.sampleTail) = some (res, n) ∧
        MQuery.samplePre.length < n ∧ (n : Int) ≤ MQuery.samplePre.length + 3 + 1 ∧
        Output.same res Output.cA := by
  have hwf : ∀ s ∈ MQuery.samplePre ++ MQuery.sampleTail, s.ok = true →
      s.final.wf = true ∧ ∀ k, k ∈ s.final.keys ↔ k ∈ ["C"] := by
    intro s hs hok
    simp only [MQuery.samplePre, MQuery.sampleTail, List.replicate, List.cons_append,
      List.nil_append, List.mem_cons, List.mem_singleton, List.not_mem_nil, or_false,
      or_self] at hs
    rcases hs with rfl | rfl | rfl
    · exact ⟨by decide, fun _ => Iff.rfl⟩
    · exact absurd hok (by decide)
    · exact ⟨by decide, fun _ => Iff.rfl⟩
  have htail : ∀ s ∈ MQuery.sampleTail, s.ok = true ∧ Output.same s.final Output.cA := by
    intro s hs
    simp only [MQuery.sampleTail, List.replicate, List.mem_cons, List.mem_singleton,
      List.not_mem_nil, or_false, or_self] at hs
    subst hs
    exact ⟨by decide, fun _ => rfl⟩
  exact ⟨by decide, by decide, hwf, htail, by decide, rfl,
    MQuery_stabilises 3 (by decide) (by decide) ["C"] Output.cA MQuery.samplePre
      MQuery.sampleTail hwf htail (by decide) rfl⟩

/-! ### The wiring of the alternator -/

/-- C16 (the code departs from it): in the alternator, eight of the eighteen
port lookups of Start address a table that does not declare the name (the
M-ports are declared in MidPorts but looked up in InPorts and OutPorts), and
the channel processes concerned are passed the zero-value Port. -/
theorem Alternator_Start_zero_ports :
    Alternator.Start.misses Alternator.GetOracle
        = [(.inPorts, "M6"), (.inPorts, "M7"), (.inPorts, "M1"), (.outPorts, "M2"),
           (.inPorts, "M0"), (.outPorts, "M4"), (.inPorts, "M3"), (.outPorts, "M5")] ∧
      "M6" ∈ Alternator.GetOracle.MidPorts ∧ "M6" ∉ Alternator.GetOracle.InPorts ∧
      (Alternator.GenerateInst Alternator.GetOracle).InPorts.lookup "M6" = none ∧
      Alternator.Start (Alternator.GenerateInst Alternator.GetOracle)
        = [ ("ReplicatorChannel", [0, 4, 5]), ("ReplicatorChannel", [0, 6, 7]),
            ("MergerChannel", [8, 9, 3]), ("SyncdrainChannel", [0, 0]),
            ("SyncChannel", [0, 0]), ("FifoChannel", [0, 0]),
            ("BufferChannel", [1, 10]), ("BufferChannel", [2, 11]) ] := by
  decide
/-! ### The empty InputSeq, and Outputs without entries -/

theorem loop_all_empty (b : Int) (hb : 0 ≤ b) (cand : Output) :
    ∀ (runs more : List OutputSeq) (count : Nat), (∀ s ∈ runs, s = []) →
      MQuery.loop b cand 0 count (runs ++ more)
        = MQuery.loop b cand 0 (count + runs.length) more
  | [], more, count, _ => by simp
  | s :: r, more, count, h => by
    have hs : s.ok = false := by rw [h s (List.mem_cons_self _ _)]; rfl
    rw [List.cons_append, loop_skip b cand 0 count s _ hb hs,
      loop_all_empty b hb cand r more (count + 1) fun t ht => h t (List.mem_cons_of_mem _ ht)]
    simp only [List.length_cons]
    congr 1
    omega

/-- C17: for a bound b ≥ 0, SeqSimulate on the empty InputSeq returns the
empty OutputSeq whatever was captured, and MQuery fed with any number of such
runs does not end: after them candidate and streak are as at the start (the
streak is 0), and the runs at hand are used up without a result. -/
theorem MQuery_empty_input (ibound : Int) (hb : 0 ≤ ibound)
    (GenerateInst : Oracle → SulInst) (self : Oracle) :
    (∀ captured, SeqSimulate GenerateInst self [] captured = some []) ∧
      ∀ runs : List OutputSeq,
        (∀ s ∈ runs, ∃ captured, SeqSimulate GenerateInst self [] captured = some s) →
        MQuery ibound runs = none ∧
          ∀ more, MQuery ibound (runs ++ more) = MQuery.loop ibound ∅ 0 runs.length more := by
  have hsim : ∀ captured, SeqSimulate GenerateInst self [] captured = some [] :=
    fun _ => rfl
  refine ⟨hsim, fun runs hruns => ?_⟩
  have hall : ∀ s ∈ runs, s = [] := by
    intro s hs
    obtain ⟨captured, hc⟩ := hruns s hs
    rw [hsim captured] at hc
    exact (Option.some.inj hc).symm
  have hmore : ∀ more, MQuery ibound (runs ++ more)
      = MQuery.loop ibound ∅ 0 runs.length more := by
    intro more
    have := loop_all_empty ibound hb ∅ runs more 0 hall
    simpa [MQuery] using this
  refine ⟨?_, hmore⟩
  have := hmore []
  rw [List.append_nil] at this
  rw [this]
  exact loop_nil ibound ∅ 0 _ hb

/-- Witness of C17: the alternator with the default bound 3. -/
theorem MQuery_empty_input_witness :
    (0 : Int) ≤ 3 ∧
      ((∀ captured, SeqSimulate GeneratePort Alternator.GetOracle [] captured = some []) ∧
        ∀ runs : List OutputSeq,
          (∀ s ∈ runs, ∃ captured,
            SeqSimulate GeneratePort Alternator.GetOracle [] captured = some s) →
          MQuery 3 runs = none ∧
            ∀ more, MQuery 3 (runs ++ more) = MQuery.loop 3 ∅ 0 runs.length more) :=
  ⟨by decide, MQuery_empty_input 3 (by decide) GeneratePort Alternator.GetOracle⟩

/-- C18: EqualTo inspects the ports of its receiver only.  The Output without
entries is EqualTo every Output, while an Output with at least one
well-formed entry is not EqualTo the Output without entries; so in the loop of
MQuery a successful run whose final Output has no entries takes the branch
`ct++` on any positive streak and leaves the candidate as it is. -/
theorem EqualTo_one_sided :
    (∀ o : Output, (∅ : Output).EqualTo o = true) ∧
      (∀ (o : Output) (k : String) (v : SingleOutput),
        o.lookup k = some v → v.wf = true → o.EqualTo ∅ = false) ∧
      (∀ (ibound : Int) (cand : Output) (ct : Int) (count : Nat) (seq : OutputSeq)
          (rest : List OutputSeq),
        0 < ct → ct ≤ ibound → seq.ok = true → seq.final = ∅ →
        MQuery.loop ibound cand ct count (seq :: rest)
          = MQuery.loop ibound cand (wrapInt (ct + 1)) (count + 1) rest) ∧
      ∀ ct : Int, 0 < ct → ct < 9223372036854775807 → wrapInt (ct + 1) = ct + 1 := by
  refine ⟨fun o => rfl, ?_, ?_, fun ct h0 h1 => wrapInt_id _ (by omega) (by omega)⟩
  · intro o k v hl hv
    cases he : o.EqualTo ∅ with
    | false => rfl
    | true =>
      have hk : k ∈ o.keys :=
        AList.mem_keys.mp (AList.lookup_isSome.mp (by rw [hl]; rfl))
      have := (equalTo_iff o ∅).mp he k hk
      unfold GoMap.index at this
      rw [hl] at this
      obtain ⟨d, e⟩ := v
      cases e <;> simp_all [SingleOutput.EqualTo, SingleOutput.wf, SingleOutput.zero]
  · intro ibound cand ct count seq rest h0 h1 hs hf
    exact loop_keep ibound cand ct count seq rest h1 hs ⟨h0, by rw [hf]; rfl⟩

/-- Witness of C18: the Output with "A" on port C against the Output without
entries, and a streak of 1 for it extended by a run ending without entries. -/
theorem EqualTo_one_sided_witness :
    (∅ : Output).EqualTo Output.cA = true ∧ Output.cA.EqualTo ∅ = false ∧
      MQuery.loop 3 Output.cA 1 1 [[∅]] = MQuery.loop 3 Output.cA (wrapInt (1 + 1)) (1 + 1) [] ∧
      MQuery 0 [[Output.cA], [∅]] = some (Output.cA, 1) ∧
      MQuery 1 [[Output.cA], [∅]] = some (Output.cA, 2) :=
  ⟨EqualTo_one_sided.1 Output.cA,
    EqualTo_one_sided.2.1 Output.cA "C" ⟨"A", false⟩ rfl (by decide),
    EqualTo_one_sided.2.2.1 3 Output.cA 1 1 [∅] [] (by decide) (by decide) rfl rfl,
    rfl, rfl⟩

end Sul
